import Mathlib

/-!
# spx: coroutine manager and 2-D affine matrix

A shallow embedding of `internal/coroutine/coro.go` (the manager of cooperatively
scheduled logical threads) and of `internal/matrix/matrix.go`.

* The matrix code is embedded over an arbitrary field `K`, reading every float
  operation as the exact field operation.
* The coroutine manager is embedded as a small-step interleaving semantics: every
  goroutine has a program counter naming the statement of `coro.go` it executes next,
  and one step executes one such statement of one goroutine.
-/

namespace Spx

/-! ## matrix.go -/

/-- The struct `Matrix` of matrix.go, laid out as `| a c tx | b d ty | 0 0 1 |`. -/
structure Matrix (K : Type) where
  A : K
  B : K
  C : K
  D : K
  TX : K
  TY : K
  deriving DecidableEq, Repr

namespace Matrix

variable {K : Type} [Field K]

/-- The method `Apply` of matrix.go (lines 42-46). -/
def Apply (m : Matrix K) (x y : K) : K × K :=
  let rx := m.A * x + m.C * y + m.TX
  let ry := m.B * x + m.D * y + m.TY
  (rx, ry)

/-- The method `ApplyInverse` of matrix.go (lines 48-53). -/
def ApplyInverse (m : Matrix K) (x y : K) : K × K :=
  let id := 1 / (m.A * m.D + m.C * -m.B)
  let rx := id * ((m.D * x) + (-m.C * y) + ((m.TY * m.C) - (m.TX * m.D)))
  let ry := id * ((m.A * y) + (-m.B * x) + ((-m.TY * m.A) + (m.TX * m.B)))
  (rx, ry)

/-- The method `Invert` of matrix.go (lines 166-180): the receiver is updated in place,
one field after the other; the embedding returns the updated receiver. -/
def Invert (m : Matrix K) : Matrix K :=
  let a1 := m.A
  let b1 := m.B
  let c1 := m.C
  let d1 := m.D
  let tx1 := m.TX
  let n := a1 * d1 - b1 * c1
  let m := { m with A := d1 / n }
  let m := { m with B := -b1 / n }
  let m := { m with C := -c1 / n }
  let m := { m with D := a1 / n }
  let m := { m with TX := (c1 * m.TY - d1 * tx1) / n }
  let m := { m with TY := -(a1 * m.TY - b1 * tx1) / n }
  m

/-- The method `TransformPoint` of matrix.go (lines 182-186). -/
def TransformPoint (m : Matrix K) (x y : K) : K × K :=
  let tx := x * m.A + y * m.C + m.TX
  let ty := x * m.B + y * m.D + m.TY
  (tx, ty)

end Matrix

/-! ## coro.go: data model -/

/-- The type `Thread = *threadObj`: `none` is the nil pointer, `some a` the thread object
allocated at address `a`.  The payload `tobj` is never read by the manager and is left
out.  The object that `CreateAndStart` allocates is used by exactly one goroutine, the
one launched by the same call; its address is modelled by the index of that goroutine,
so that different calls return different identities. -/
abbrev Thread := Option Nat

/-- The error value `ErrCannotYieldANonrunningThread` of coro.go (line 29). -/
def ErrCannotYieldANonrunningThread : String := "can not yield a non-running thread"

/-- Positions inside `Yield` (coro.go lines 97-113): the statement executed next. -/
inductive YPos
  | check     -- line 98: `if p.Current() != me`
  | release   -- line 102: `p.sema.Unlock()` (after the empty `notify`)
  | lock      -- line 104: `p.mutex.Lock()`
  | set       -- line 105: `p.suspended[me] = true`
  | test      -- line 106: `for p.suspended[me]`
  | wait      -- line 107: `p.cond.Wait()`, before it unlocks the mutex and parks
  | parked    -- line 107: inside `Wait`, on the notify list of the condition variable
  | woken     -- line 107: inside `Wait`, awoken by a broadcast, before it relocks the mutex
  | unlock    -- line 109: `p.mutex.Unlock()`
  | acquire   -- line 111: `p.sema.Lock()`
  | publish   -- line 112: `p.current = me`
  deriving DecidableEq, Repr

/-- Positions inside `Resume` (coro.go lines 117-132): the statement executed next.
The boolean of the last two is the local variable `done`. -/
inductive RPos
  | lock                    -- line 120: `p.mutex.Lock()` (after `done := false`)
  | test                    -- line 121: `if p.suspended[th]`
  | store                   -- line 122: `p.suspended[th] = false`
  | broadcast               -- lines 123-124: `p.cond.Broadcast(); done = true`
  | unlock (done : Bool)    -- line 126: `p.mutex.Unlock()`
  | check (done : Bool)     -- lines 127-130: `if done return`, else `runtime.Gosched()`
  deriving DecidableEq, Repr

/-- Program counter of a goroutine.  A goroutine launched by `CreateAndStart` runs
`start, publish, body, ..., retLock, retDelete, retUnlock, retSema, done`; between
`body` and `retLock` its body `fn(id)` may call `Yield`, `Resume` and `Sched`.  Any
other goroutine of the model only calls `Resume` (the helper of `Sched`, or a caller
outside the logical threads such as the driving loop).  An unrecovered panic ends a Go
program; the model only stops the panicking goroutine, with the run lock still held,
which leaves every run of the program a run of the model. -/
inductive PC
  | none        -- no goroutine with this index has been launched
  | start       -- line 73: `p.sema.Lock()`
  | publish     -- line 74: `atomic.StorePointer(&p.current, id)`
  | body        -- line 75: inside `fn(id)`, between two calls of the manager
  | retLock     -- line 76: `p.mutex.Lock()`
  | retDelete   -- line 77: `delete(p.suspended, id)`
  | retUnlock   -- line 78: `p.mutex.Unlock()`
  | retSema     -- line 80: `p.sema.Unlock()` (after the empty `notify`)
  | done        -- the goroutine has returned
  | yield (k : YPos) (me : Thread) (helper : Option Nat)
      -- inside `Yield(me)`; `helper` is the goroutine launched by the enclosing
      -- `Sched(me)`, if `Yield` was called from `Sched`
  | resume (k : RPos) (th : Thread) (inBody : Bool)
      -- inside `Resume(th)`; `inBody` tells whether the call returns into a body
  | sched (me : Thread)   -- line 137 of `Sched(me)`: `go func()` running `p.Resume(me)`
  | panicked (err : String)   -- the goroutine panicked with `err`
  | fatal       -- the runtime aborted: `Unlock` of a mutex that is not locked
  deriving DecidableEq, Repr

/-- Pointwise update of a map. -/
def upd {κ α : Type} [DecidableEq κ] (f : κ → α) (k : κ) (v : α) : κ → α :=
  fun i => if i = k then v else f i

/-- The struct `Coroutines` of coro.go (lines 44-50) together with the goroutines that
use it.  `suspended t = none` says that `t` is not a key of the map.  `mutex` and
`sema` tell whether the lock is held.  The notify list of `cond` is the set of
goroutines whose program counter is `yield parked`.  `ngo` counts the goroutines
launched so far. -/
structure State where
  suspended : Thread → Option Bool
  current : Thread
  mutex : Bool
  sema : Bool
  pc : Nat → PC
  ngo : Nat

/-- The Go map read `p.suspended[t]`: `false` when `t` is not a key. -/
def State.flag (s : State) (t : Thread) : Bool := (s.suspended t).getD false

/-- Goroutine `g` continues at `k`. -/
def State.goto (s : State) (g : Nat) (k : PC) : State := { s with pc := upd s.pc g k }

/-- Launch a goroutine (`go func() ...`) that starts at `k`; it gets index `s.ngo`. -/
def State.spawn (s : State) (k : PC) : State :=
  { s with pc := upd s.pc s.ngo k, ngo := s.ngo + 1 }

/-- The function `New` of coro.go (lines 54-60): empty map, no current thread, both
locks free, no goroutine. -/
def New : State :=
  { suspended := fun _ => Option.none, current := Option.none, mutex := false,
    sema := false, pc := fun _ => PC.none, ngo := 0 }

/-- The method `Current` of coro.go (lines 88-90). -/
def Current (s : State) : Thread := s.current

/-! ## coro.go: one statement at a time -/

/-- The effect on the manager of one statement of coro.go. -/
inductive Eff
  | skip            -- a test, a call or a return: the manager is not changed
  | lockMutex       -- `p.mutex.Lock()`
  | unlockMutex     -- `p.mutex.Unlock()`
  | lockSema        -- `p.sema.Lock()`
  | unlockSema      -- `p.sema.Unlock()`
  | setCurrent (t : Thread)     -- a store to `p.current`
  | setSuspended (t : Thread) (v : Option Bool)
      -- `p.suspended[t] = b` for `v = some b`, `delete(p.suspended, t)` for `v = none`
  | broadcast       -- `p.cond.Broadcast()`
  | go (k : PC)     -- `go func() ...`: launch a goroutine that starts at `k`
  deriving DecidableEq, Repr

/-- What `p.cond.Broadcast()` does to a goroutine: one parked in `Wait` is awoken. -/
def wake : PC → PC
  | PC.yield YPos.parked me h => PC.yield YPos.woken me h
  | k => k

/-- Goroutine `g` executes a statement with effect `e` and continues at `k`.  `Lock` is
enabled only when the lock is free (`none` otherwise: the goroutine is blocked);
`Unlock` of a lock that is not locked is a fatal error of the Go runtime. -/
def Eff.run (s : State) (g : Nat) (k : PC) : Eff → Option State
  | Eff.skip => some (s.goto g k)
  | Eff.lockMutex =>
      if s.mutex then Option.none else some ({ s with mutex := true }.goto g k)
  | Eff.unlockMutex =>
      if s.mutex then some ({ s with mutex := false }.goto g k) else some (s.goto g PC.fatal)
  | Eff.lockSema =>
      if s.sema then Option.none else some ({ s with sema := true }.goto g k)
  | Eff.unlockSema =>
      if s.sema then some ({ s with sema := false }.goto g k) else some (s.goto g PC.fatal)
  | Eff.setCurrent t => some ({ s with current := t }.goto g k)
  | Eff.setSuspended t v => some ({ s with suspended := upd s.suspended t v }.goto g k)
  | Eff.broadcast => some ({ s with pc := fun i => wake (s.pc i) }.goto g k)
  | Eff.go k1 => some ((s.spawn k1).goto g k)

/-- The method `CreateAndStart` of coro.go (lines 70-86), as seen by its caller: it
allocates `id`, launches the goroutine of lines 72-81 and returns `id`.  The call
`runtime.Gosched()` of line 83 has no effect on the manager.  `Create` (line 65) is
the same call with `main == nil`. -/
def CreateAndStart (s : State) : Thread × State := (some s.ngo, s.spawn PC.start)

/-- The goroutine of `CreateAndStart` (lines 73-80), outside of `fn(id)`: the statement
at each program counter and where the goroutine `g`, whose thread object is `some g`,
continues. -/
def goroutine (g : Nat) : PC → Option (Eff × PC)
  | PC.start => some (Eff.lockSema, PC.publish)
  | PC.publish => some (Eff.setCurrent (some g), PC.body)
  | PC.retLock => some (Eff.lockMutex, PC.retDelete)
  | PC.retDelete => some (Eff.setSuspended (some g) Option.none, PC.retUnlock)
  | PC.retUnlock => some (Eff.unlockMutex, PC.retSema)
  | PC.retSema => some (Eff.unlockSema, PC.done)
  | _ => Option.none

/-- The method `Yield` of coro.go (lines 97-113): the statement at each position and
where the caller continues; on return it continues in its body.  A goroutine parked in
`Wait` has no statement to execute until a broadcast awakes it. -/
def Yield (s : State) (me : Thread) (h : Option Nat) : YPos → Option (Eff × PC)
  | YPos.check =>
      if Current s ≠ me then some (Eff.skip, PC.panicked ErrCannotYieldANonrunningThread)
      else some (Eff.skip, PC.yield YPos.release me h)
  | YPos.release => some (Eff.unlockSema, PC.yield YPos.lock me h)
  | YPos.lock => some (Eff.lockMutex, PC.yield YPos.set me h)
  | YPos.set => some (Eff.setSuspended me (some true), PC.yield YPos.test me h)
  | YPos.test =>
      if s.flag me then some (Eff.skip, PC.yield YPos.wait me h)
      else some (Eff.skip, PC.yield YPos.unlock me h)
  | YPos.wait => some (Eff.unlockMutex, PC.yield YPos.parked me h)
  | YPos.parked => Option.none
  | YPos.woken => some (Eff.lockMutex, PC.yield YPos.test me h)
  | YPos.unlock => some (Eff.unlockMutex, PC.yield YPos.acquire me h)
  | YPos.acquire => some (Eff.lockSema, PC.yield YPos.publish me h)
  | YPos.publish => some (Eff.setCurrent me, PC.body)

/-- The method `Resume` of coro.go (lines 117-132): the statement at each position and
where the caller continues.  `runtime.Gosched()` has no effect on the manager; after
it the loop starts over.  On return the caller continues in its body when `inBody`,
and has finished otherwise. -/
def Resume (s : State) (th : Thread) (inBody : Bool) : RPos → Option (Eff × PC)
  | RPos.lock => some (Eff.lockMutex, PC.resume RPos.test th inBody)
  | RPos.test =>
      if s.flag th then some (Eff.skip, PC.resume RPos.store th inBody)
      else some (Eff.skip, PC.resume (RPos.unlock false) th inBody)
  | RPos.store => some (Eff.setSuspended th (some false), PC.resume RPos.broadcast th inBody)
  | RPos.broadcast => some (Eff.broadcast, PC.resume (RPos.unlock true) th inBody)
  | RPos.unlock done => some (Eff.unlockMutex, PC.resume (RPos.check done) th inBody)
  | RPos.check done =>
      if done then some (Eff.skip, if inBody then PC.body else PC.done)
      else some (Eff.skip, PC.resume RPos.lock th inBody)

/-- The method `Sched` of coro.go (lines 136-141): it launches the helper goroutine that
calls `Resume(me)`, which gets the index `s.ngo`, and then calls `Yield(me)`. -/
def Sched (s : State) (me : Thread) : Eff × PC :=
  (Eff.go (PC.resume RPos.lock me false), PC.yield YPos.check me (some s.ngo))

/-- The statement of coro.go that a goroutine `g` at program counter `k` executes next,
and where it continues.  `none` in a body (the body decides), when parked, and when
the goroutine has finished. -/
def stmt (s : State) (g : Nat) : PC → Option (Eff × PC)
  | PC.yield k me h => Yield s me h k
  | PC.resume k th b => Resume s th b k
  | PC.sched me => some (Sched s me)
  | k => goroutine g k

/-- What the body `fn(id)` of a logical thread does next: a call of the manager, or
return.  (`Current` reads one word and `Create` is the action `Action.create`.) -/
inductive Call
  | yield (me : Thread)
  | resume (th : Thread)
  | sched (me : Thread)
  | ret
  deriving DecidableEq, Repr

/-- Where a body continues when it does `c`. -/
def Call.entry : Call → PC
  | Call.yield me => PC.yield YPos.check me Option.none
  | Call.resume th => PC.resume RPos.lock th true
  | Call.sched me => PC.sched me
  | Call.ret => PC.retLock

/-- One step of the whole system. -/
inductive Action
  | create                      -- somebody calls `Create` or `CreateAndStart`
  | resume (th : Thread)        -- a goroutine that is no logical thread calls `Resume(th)`
  | call (g : Nat) (c : Call)   -- the body of goroutine `g` does `c`
  | exec (g : Nat)              -- goroutine `g` executes its next statement of coro.go
  deriving DecidableEq, Repr

/-- The step function of the interleaving semantics; `none` when the action is not
enabled in `s` (a `Lock` of a held lock, a `Wait` that was not awoken, a goroutine that
has finished, a body call of a goroutine that is not in its body). -/
def step (s : State) : Action → Option State
  | Action.create => some (CreateAndStart s).2
  | Action.resume th => some (s.spawn (PC.resume RPos.lock th false))
  | Action.call g c =>
      match s.pc g with
      | PC.body => some (s.goto g c.entry)
      | _ => Option.none
  | Action.exec g =>
      match stmt s g (s.pc g) with
      | some (e, k) => e.run s g k
      | Option.none => Option.none

/-- Run a list of actions, the first one first; `none` when one of them is not
enabled. -/
def run (s : State) : List Action → Option State
  | [] => some s
  | a :: as => (step s a).bind (fun s1 => run s1 as)

/-- The states that the manager reaches from `New`. -/
def Reachable (s : State) : Prop := ∃ acts, run New acts = some s

/-- Positions of `Yield` at which the caller holds `p.sema`: before line 102 and after
line 111. -/
def YPos.holdsSema : YPos → Bool
  | YPos.check => true
  | YPos.release => true
  | YPos.lock => false
  | YPos.set => false
  | YPos.test => false
  | YPos.wait => false
  | YPos.parked => false
  | YPos.woken => false
  | YPos.unlock => false
  | YPos.acquire => false
  | YPos.publish => true

/-- The lock `sema` is held by a goroutine at this program counter: it has passed a
`p.sema.Lock()` and not yet the next `p.sema.Unlock()`.  A goroutine that is no logical
thread never touches `sema`; a panic leaves `Yield` at line 99, with the lock held. -/
def holdsSema : PC → Bool
  | PC.none => false
  | PC.start => false
  | PC.publish => true
  | PC.body => true
  | PC.retLock => true
  | PC.retDelete => true
  | PC.retUnlock => true
  | PC.retSema => true
  | PC.done => false
  | PC.yield k _ _ => k.holdsSema
  | PC.resume _ _ inBody => inBody
  | PC.sched _ => true
  | PC.panicked _ => true
  | PC.fatal => false

/-- Positions of `Yield` at which the caller holds `p.mutex`. -/
def YPos.holdsMutex : YPos → Bool
  | YPos.check => false
  | YPos.release => false
  | YPos.lock => false
  | YPos.set => true
  | YPos.test => true
  | YPos.wait => true
  | YPos.parked => false
  | YPos.woken => false
  | YPos.unlock => true
  | YPos.acquire => false
  | YPos.publish => false

/-- Positions of `Resume` at which the caller holds `p.mutex`. -/
def RPos.holdsMutex : RPos → Bool
  | RPos.lock => false
  | RPos.test => true
  | RPos.store => true
  | RPos.broadcast => true
  | RPos.unlock _ => true
  | RPos.check _ => false

/-- The goroutine at this program counter holds `p.mutex`. -/
def holdsMutex : PC → Bool
  | PC.none => false
  | PC.start => false
  | PC.publish => false
  | PC.body => false
  | PC.retLock => false
  | PC.retDelete => true
  | PC.retUnlock => true
  | PC.retSema => false
  | PC.done => false
  | PC.yield k _ _ => k.holdsMutex
  | PC.resume k _ _ => k.holdsMutex
  | PC.sched _ => false
  | PC.panicked _ => false
  | PC.fatal => false

/-! ## Auxiliary notions for the proofs -/

/-- Goroutine `g` may execute a statement with effect `e` and continue at `k`: the
statement of coro.go at its program counter, or a call made by its body. -/
def Move (s : State) (g : Nat) (e : Eff) (k : PC) : Prop :=
  stmt s g (s.pc g) = some (e, k) ∨ (s.pc g = PC.body ∧ e = Eff.skip ∧ ∃ c : Call, k = c.entry)

/-- A lock is used correctly: at most one goroutine is at a program counter that holds
it, and none when the lock is free. -/
structure LockInv (holds : PC → Bool) (locked : Bool) (pc : Nat → PC) : Prop where
  excl : ∀ i j, holds (pc i) = true → holds (pc j) = true → i = j
  free : locked = false → ∀ i, holds (pc i) = false

/-- Positions of `Yield` at which `me` is still the published current thread. -/
def YPos.published : YPos → Bool
  | YPos.check => true
  | YPos.release => true
  | YPos.lock => false
  | YPos.set => false
  | YPos.test => false
  | YPos.wait => false
  | YPos.parked => false
  | YPos.woken => false
  | YPos.unlock => false
  | YPos.acquire => false
  | YPos.publish => false

/-- The goroutine at this program counter holds `sema` and has stored its identity to
`p.current`: it is inside its body, or in manager code that its body called or that
follows its body, up to the release of `sema`. -/
def published : PC → Bool
  | PC.none => false
  | PC.start => false
  | PC.publish => false
  | PC.body => true
  | PC.retLock => true
  | PC.retDelete => true
  | PC.retUnlock => true
  | PC.retSema => true
  | PC.done => false
  | PC.yield k _ _ => k.published
  | PC.resume _ _ inBody => inBody
  | PC.sched _ => true
  | PC.panicked _ => false
  | PC.fatal => false

/-- First layer of invariants: goroutine indices, the run lock, `current`, and the
argument of a `Yield` that passed its check. -/
structure Inv1 (s : State) : Prop where
  wf : ∀ i, s.ngo ≤ i → s.pc i = PC.none
  sema : LockInv holdsSema s.sema s.pc
  cur : ∀ i, published (s.pc i) = true → s.current = some i
  self : ∀ i k me h, s.pc i = PC.yield k me h → k ≠ YPos.check → me = some i

/-- The statement neither takes nor releases `sema` and does not store `current`. -/
def plain1 (k0 k : PC) : Prop :=
  (holdsSema k = true → holdsSema k0 = true) ∧ (published k = true → published k0 = true)

/-- What the first layer needs to know of a statement with effect `e` that takes
goroutine `g` from `k0` to `k`. -/
def Eff.ok1 (g : Nat) (k0 k : PC) : Eff → Prop
  | Eff.skip => plain1 k0 k
  | Eff.lockMutex => plain1 k0 k
  | Eff.unlockMutex => plain1 k0 k
  | Eff.lockSema => published k = false
  | Eff.unlockSema => holdsSema k0 = true ∧ holdsSema k = false
  | Eff.setCurrent t => t = some g ∧ holdsSema k0 = true
  | Eff.setSuspended _ _ => plain1 k0 k
  | Eff.broadcast => plain1 k0 k
  | Eff.go k1 => plain1 k0 k ∧ holdsSema k1 = false ∧ ∀ ky me h, k1 ≠ PC.yield ky me h

/-- A `Yield` position reached from `k` has the executing goroutine as its argument. -/
def selfOk (g : Nat) (k : PC) : Prop :=
  ∀ ky me h, k = PC.yield ky me h → ky ≠ YPos.check → me = some g

/-- Positions of `Yield` inside the wait loop of lines 106-108, after line 105. -/
def YPos.inLoop : YPos → Bool
  | YPos.check => false
  | YPos.release => false
  | YPos.lock => false
  | YPos.set => false
  | YPos.test => true
  | YPos.wait => true
  | YPos.parked => true
  | YPos.woken => true
  | YPos.unlock => false
  | YPos.acquire => false
  | YPos.publish => false

/-- The goroutine at this program counter is parked inside the wait loop of `Yield`: it
has executed `p.suspended[me] = true` and has not yet left `for p.suspended[me]`. -/
def inLoop : PC → Bool
  | PC.none => false
  | PC.start => false
  | PC.publish => false
  | PC.body => false
  | PC.retLock => false
  | PC.retDelete => false
  | PC.retUnlock => false
  | PC.retSema => false
  | PC.done => false
  | PC.yield k _ _ => k.inLoop
  | PC.resume _ _ _ => false
  | PC.sched _ => false
  | PC.panicked _ => false
  | PC.fatal => false

/-- The goroutine at this program counter is not a key of `p.suspended`: it has not yet
run a body, or it has executed the `delete` of line 77, or it is no logical thread. -/
def absent : PC → Bool
  | PC.none => true
  | PC.start => true
  | PC.publish => true
  | PC.body => false
  | PC.retLock => false
  | PC.retDelete => false
  | PC.retUnlock => true
  | PC.retSema => true
  | PC.done => true
  | PC.yield _ _ _ => false
  | PC.resume _ _ inBody => !inBody
  | PC.sched _ => false
  | PC.panicked _ => false
  | PC.fatal => false

/-- The map `p.suspended` against the program counters. -/
structure MapInv (M : Thread → Option Bool) (pc : Nat → PC) : Prop where
  susp : ∀ t, M t = some true → ∃ i, t = some i ∧ inLoop (pc i) = true
  gone : ∀ i, absent (pc i) = true → M (some i) = Option.none
  nil : M Option.none = Option.none
  store : ∀ i th b, pc i = PC.resume RPos.store th b → M th = some true

/-- Second layer of invariants: the state mutex and the map `p.suspended`. -/
structure Inv2 (s : State) : Prop where
  mutex : LockInv holdsMutex s.mutex s.pc
  map : MapInv s.suspended s.pc

/-- The statement neither takes nor releases `mutex`. -/
def mutexSame (k0 k : PC) : Prop := holdsMutex k = true → holdsMutex k0 = true

/-- A statement that does not write the map keeps `MapInv` when it takes goroutine `g`
from `k0` to `k`. -/
def frame2 (M : Thread → Option Bool) (g : Nat) (k0 k : PC) : Prop :=
  (inLoop k0 = true → inLoop k = true ∨ M (some g) ≠ some true) ∧
  (absent k = true → absent k0 = true) ∧
  (∀ th b, k = PC.resume RPos.store th b → M th = some true)

/-- What the second layer needs to know of a statement with effect `e` that takes
goroutine `g` from `k0` to `k`. -/
def Eff.ok2 (s : State) (g : Nat) (k0 k : PC) : Eff → Prop
  | Eff.skip => mutexSame k0 k ∧ frame2 s.suspended g k0 k
  | Eff.lockMutex => frame2 s.suspended g k0 k
  | Eff.unlockMutex => holdsMutex k0 = true ∧ holdsMutex k = false ∧ frame2 s.suspended g k0 k
  | Eff.lockSema => mutexSame k0 k ∧ frame2 s.suspended g k0 k
  | Eff.unlockSema => mutexSame k0 k ∧ frame2 s.suspended g k0 k
  | Eff.setCurrent _ => mutexSame k0 k ∧ frame2 s.suspended g k0 k
  | Eff.setSuspended t v =>
      holdsMutex k0 = true ∧ inLoop k0 = false ∧ (∀ th b, k ≠ PC.resume RPos.store th b) ∧
      ((v = some true ∧ t = some g ∧ inLoop k = true)
        ∨ (v = some false ∧ s.suspended t = some true ∧ inLoop k = false ∧
            (absent k = true → absent k0 = true))
        ∨ (v = Option.none ∧ t = some g ∧ inLoop k = false))
  | Eff.broadcast => mutexSame k0 k ∧ frame2 s.suspended g k0 k
  | Eff.go k1 =>
      mutexSame k0 k ∧ frame2 s.suspended g k0 k ∧ holdsMutex k1 = false ∧ inLoop k1 = false

/-! ## Concrete runs -/

/-- The state after the actions `acts`, started in `New` (`New` itself when one of the
actions is not enabled). -/
def reach (acts : List Action) : State := (run New acts).getD New

/-- Two threads are created; the first one takes the run lock and enters its body. -/
def runTwoThreads : List Action :=
  [Action.create, Action.create, Action.exec 0, Action.exec 0]

/-- A thread enters its body and calls `Yield` with the handle of another thread. -/
def runYieldOther : List Action :=
  [Action.create, Action.create, Action.exec 0, Action.exec 0,
   Action.call 0 (Call.yield (some 1))]

/-- A thread enters its body, calls `Yield(me)` and passes the check of line 98: it is
about to release the run lock (line 102). -/
def runYieldRelease : List Action :=
  [Action.create, Action.exec 0, Action.exec 0, Action.call 0 (Call.yield (some 0)),
   Action.exec 0]

/-- After `runYieldRelease` the thread releases the run lock; a second thread is created,
takes the run lock and enters its body. -/
def runYieldOvertaken : List Action :=
  runYieldRelease ++ [Action.exec 0, Action.create, Action.exec 1, Action.exec 1]

/-- A thread calls `Yield(me)` and parks in `Wait` (lines 98-107). -/
def runYieldParked : List Action :=
  runYieldRelease ++ [Action.exec 0, Action.exec 0, Action.exec 0, Action.exec 0, Action.exec 0]

/-- After `runYieldParked` another goroutine calls `Resume` of the parked thread and
executes lines 120-122: the flag is cleared, the broadcast has not happened yet. -/
def runResumeStored : List Action :=
  runYieldParked ++ [Action.resume (some 0), Action.exec 1, Action.exec 1, Action.exec 1]

/-- The state after a `Resume(th)` by goroutine `r` that found the flag of `th` set:
the flag is cleared, every goroutine parked in `Wait` is awoken, and `r` has returned
(into its body when `inBody`). -/
def resumed (s : State) (r : Nat) (th : Thread) (inBody : Bool) : State :=
  { s with suspended := upd s.suspended th (some false),
           pc := upd (fun i => wake (s.pc i)) r (if inBody then PC.body else PC.done) }

/-- Goroutine `r` is inside the loop of `Resume(th)` on a pass that does not find the
flag of `th` set, and no other goroutine holds the mutex. -/
def Spinning (s : State) (r : Nat) (th : Thread) (inBody : Bool) : Prop :=
  s.suspended th ≠ some true ∧
  ((s.pc r = PC.resume RPos.lock th inBody ∧ s.mutex = false)
    ∨ (s.pc r = PC.resume RPos.test th inBody ∧ s.mutex = true)
    ∨ (s.pc r = PC.resume (RPos.unlock false) th inBody ∧ s.mutex = true)
    ∨ (s.pc r = PC.resume (RPos.check false) th inBody ∧ s.mutex = false))

/-- The step from `s` to `s1` changed nothing of the manager but the mutex, and no
goroutine but `r`. -/
def SameManager (s s1 : State) (r : Nat) : Prop :=
  s1.suspended = s.suspended ∧ s1.current = s.current ∧ s1.sema = s.sema ∧ s1.ngo = s.ngo
    ∧ ∀ i, i ≠ r → s1.pc i = s.pc i

/-- A thread yields, is resumed, runs to completion; then `Resume` of the same thread is
called a second time (goroutine 2). -/
def runResumeTwice : List Action :=
  runYieldParked ++
  [Action.resume (some 0), Action.exec 1, Action.exec 1, Action.exec 1, Action.exec 1,
   Action.exec 1, Action.exec 1,
   Action.exec 0, Action.exec 0, Action.exec 0, Action.exec 0, Action.exec 0,
   Action.call 0 Call.ret, Action.exec 0, Action.exec 0, Action.exec 0, Action.exec 0,
   Action.resume (some 0)]

/-- Positions of `Yield` after line 105, `p.suspended[me] = true`. -/
def YPos.afterSet : YPos → Bool
  | YPos.check => false
  | YPos.release => false
  | YPos.lock => false
  | YPos.set => false
  | YPos.test => true
  | YPos.wait => true
  | YPos.parked => true
  | YPos.woken => true
  | YPos.unlock => true
  | YPos.acquire => true
  | YPos.publish => true

/-- Positions of `Yield` after the wait loop of lines 106-108. -/
def YPos.pastLoop : YPos → Bool
  | YPos.check => false
  | YPos.release => false
  | YPos.lock => false
  | YPos.set => false
  | YPos.test => false
  | YPos.wait => false
  | YPos.parked => false
  | YPos.woken => false
  | YPos.unlock => true
  | YPos.acquire => true
  | YPos.publish => true

/-- The property `P` holds in `s` and in every state that the actions `acts` pass
through, started in `s`. -/
def Along (P : State → Prop) : State → List Action → Prop
  | s, [] => P s
  | s, a :: as => P s ∧ ∀ s1, step s a = some s1 → Along P s1 as

/-- Goroutine `g` is inside the call `Yield(me)` (made from `Sched` with helper `h`, if
any), after line 105. -/
def InYield (g : Nat) (me : Thread) (h : Option Nat) (s : State) : Prop :=
  ∃ ky, s.pc g = PC.yield ky me h ∧ ky.afterSet = true

/-- In the run `acts` from `New`, goroutine `r`, inside `Resume(me)`, has changed
`suspended[me]` from true to false (line 122) while goroutine `g` was parked inside the
wait loop of its call `Yield(me)`, and `g` has not left this call of `Yield` since. -/
def ClearedBy (acts : List Action) (g : Nat) (me : Thread) (h : Option Nat) (r : Nat) : Prop :=
  ∃ (pre : List Action) (b : Bool) (post : List Action) (s0 s1 : State),
    acts = pre ++ Action.exec r :: post
    ∧ run New pre = some s0
    ∧ s0.pc r = PC.resume RPos.store me b
    ∧ s0.suspended me = some true
    ∧ (∃ ky, s0.pc g = PC.yield ky me h ∧ ky.inLoop = true)
    ∧ step s0 (Action.exec r) = some s1
    ∧ s1.suspended me = some false
    ∧ Along (InYield g me h) s1 post

/-- In the run `acts` from `New`, a step of some `Resume(me)` has cleared the flag that
the call `Yield(me)` of goroutine `g` had set, and `g` is still in this call. -/
def ClearedSince (acts : List Action) (g : Nat) (me : Thread) (h : Option Nat) : Prop :=
  ∃ r, ClearedBy acts g me h r

/-- A thread parks in `Yield`, is resumed by goroutine 1, wakes up and leaves the wait
loop (it is at line 109). -/
def runYieldWoken : List Action :=
  runYieldParked ++
  [Action.resume (some 0), Action.exec 1, Action.exec 1, Action.exec 1, Action.exec 1,
   Action.exec 1, Action.exec 0, Action.exec 0]

/-! ## `Sched` -/

/-- The action is not a call of `Resume(some m)` by anybody but the helper goroutine of
a `Sched(some m)` that thread `m` itself calls: the driving loop does not call
`Resume(some m)`, no body calls `Resume(some m)`, and no other thread calls
`Sched(some m)`. -/
def Action.quiet (m : Nat) : Action → Bool
  | Action.create => true
  | Action.resume th => decide (th ≠ some m)
  | Action.call _ (Call.yield _) => true
  | Action.call _ (Call.resume th) => decide (th ≠ some m)
  | Action.call g (Call.sched me) => decide (me = some m → g = m)
  | Action.call _ Call.ret => true
  | Action.exec _ => true

/-- A run in which `Resume(some m)` is called only by the helpers of the `Sched(some m)`
of thread `m`. -/
def Quiet (m : Nat) (acts : List Action) : Prop := ∀ a, a ∈ acts → a.quiet m = true

/-- How far a call of `Resume` has got: before it found the flag set, about to clear it
(line 122), after clearing it with the mutex still held (lines 123-126), after the
unlock of line 126 on its way out (or returned). -/
inductive Phase
  | pending
  | store
  | clearing
  | returned
  | other
  deriving DecidableEq, Repr

/-- The phase of a position of `Resume`. -/
def RPos.phase : RPos → Phase
  | RPos.lock => Phase.pending
  | RPos.test => Phase.pending
  | RPos.store => Phase.store
  | RPos.broadcast => Phase.clearing
  | RPos.unlock true => Phase.clearing
  | RPos.unlock false => Phase.pending
  | RPos.check true => Phase.returned
  | RPos.check false => Phase.pending

/-- The phase of a goroutine as a helper that calls `Resume(some m)`; a goroutine that
has finished counts as returned, one that is elsewhere as `other`. -/
def phase (m : Nat) : PC → Phase
  | PC.none => Phase.other
  | PC.start => Phase.other
  | PC.publish => Phase.other
  | PC.body => Phase.other
  | PC.retLock => Phase.other
  | PC.retDelete => Phase.other
  | PC.retUnlock => Phase.other
  | PC.retSema => Phase.other
  | PC.done => Phase.returned
  | PC.yield _ _ _ => Phase.other
  | PC.resume k th b => if th = some m ∧ b = false then k.phase else Phase.other
  | PC.sched _ => Phase.other
  | PC.panicked _ => Phase.other
  | PC.fatal => Phase.other

/-- The position `ky` of the `Yield` inside `Sched`, against the phase `ph` of the helper
of this `Sched` and the entry `f` of the thread in the map: before line 105 the helper
has not found the flag; inside the wait loop the flag is set and the helper has not
cleared it, or the flag is cleared and the helper is past line 122; after the loop the
flag is cleared and the helper has released the mutex. -/
def Good (ky : YPos) (ph : Phase) (f : Option Bool) : Prop :=
  match ky with
  | YPos.check => ph = Phase.pending
  | YPos.release => ph = Phase.pending
  | YPos.lock => ph = Phase.pending
  | YPos.set => ph = Phase.pending
  | YPos.test => (f = some true ∧ (ph = Phase.pending ∨ ph = Phase.store))
      ∨ (f = some false ∧ (ph = Phase.clearing ∨ ph = Phase.returned))
  | YPos.wait => (f = some true ∧ (ph = Phase.pending ∨ ph = Phase.store))
      ∨ (f = some false ∧ (ph = Phase.clearing ∨ ph = Phase.returned))
  | YPos.parked => (f = some true ∧ (ph = Phase.pending ∨ ph = Phase.store))
      ∨ (f = some false ∧ (ph = Phase.clearing ∨ ph = Phase.returned))
  | YPos.woken => (f = some true ∧ (ph = Phase.pending ∨ ph = Phase.store))
      ∨ (f = some false ∧ (ph = Phase.clearing ∨ ph = Phase.returned))
  | YPos.unlock => f = some false ∧ ph = Phase.returned
  | YPos.acquire => f = some false ∧ ph = Phase.returned
  | YPos.publish => f = some false ∧ ph = Phase.returned

/-- Third layer of invariants, for the runs that are quiet for thread `m`: a call of
`Resume(some m)` that has not yet passed line 126 with `done == true` is the helper of
the `Sched(some m)` that thread `m` is in; this helper and the `Yield` of `Sched` are
in step; only thread `m` calls `Sched(some m)`. -/
structure Inv3 (m : Nat) (s : State) : Prop where
  live : ∀ r k b, s.pc r = PC.resume k (some m) b → k ≠ RPos.check true →
    ∃ ky, s.pc m = PC.yield ky (some m) (some r)
  good : ∀ ky r, s.pc m = PC.yield ky (some m) (some r) →
    Good ky (phase m (s.pc r)) (s.suspended (some m))
  sched : ∀ g, s.pc g = PC.sched (some m) → g = m

/-- A thread calls `Sched(me)`; its `Yield` parks; the helper (goroutine 1) clears the
flag, broadcasts and returns; the thread wakes up, leaves the wait loop, re-acquires
the run lock and is at line 112. -/
def runSched : List Action :=
  [Action.create, Action.exec 0, Action.exec 0, Action.call 0 (Call.sched (some 0)),
   Action.exec 0, Action.exec 0, Action.exec 0, Action.exec 0, Action.exec 0, Action.exec 0,
   Action.exec 0,
   Action.exec 1, Action.exec 1, Action.exec 1, Action.exec 1, Action.exec 1, Action.exec 1,
   Action.exec 0, Action.exec 0, Action.exec 0, Action.exec 0]

/-- A thread parks in `Yield`; two goroutines (1 and 2) call `Resume` of it; goroutine 1
locks the mutex and finds the flag set (lines 120-121): it is about to clear the flag
(line 122), goroutine 2 is at line 120. -/
def runResumeRace : List Action :=
  runYieldParked ++
  [Action.resume (some 0), Action.resume (some 0), Action.exec 1, Action.exec 1]

/-- Two threads (0 and 1) park in `Yield`, one after the other; then goroutine 2 calls
`Resume` of thread 0. -/
def runTwoParked : List Action :=
  [Action.create, Action.create,
   Action.exec 0, Action.exec 0, Action.call 0 (Call.yield (some 0)),
   Action.exec 0, Action.exec 0, Action.exec 0, Action.exec 0, Action.exec 0, Action.exec 0,
   Action.exec 1, Action.exec 1, Action.call 1 (Call.yield (some 1)),
   Action.exec 1, Action.exec 1, Action.exec 1, Action.exec 1, Action.exec 1, Action.exec 1,
   Action.resume (some 0)]

/-- After `runResumeRace` goroutine 1 finishes its pass of `Resume`: it clears the flag,
broadcasts, unlocks the mutex and returns (lines 122-128). -/
def runResumeRaceLost : List Action :=
  runResumeRace ++ [Action.exec 1, Action.exec 1, Action.exec 1, Action.exec 1]

/-! # Theorems -/

/-! ## The step relation: basic facts -/

@[simp] theorem upd_same {κ α : Type} [DecidableEq κ] (f : κ → α) (k : κ) (v : α) :
    upd f k v k = v := by simp [upd]

theorem upd_other {κ α : Type} [DecidableEq κ] (f : κ → α) {k i : κ} (v : α) (h : i ≠ k) :
    upd f k v i = f i := by simp [upd, h]

theorem run_append (s : State) (as bs : List Action) :
    run s (as ++ bs) = (run s as).bind (fun s1 => run s1 bs) := by
  induction as generalizing s with
  | nil => simp [run]
  | cons a as ih =>
    simp only [List.cons_append, run]
    cases h : step s a with
    | none => simp
    | some s1 => simp [ih]

theorem run_snoc {s s1 s2 : State} {as : List Action} {a : Action}
    (h1 : run s as = some s1) (h2 : step s1 a = some s2) : run s (as ++ [a]) = some s2 := by
  simp [run_append, h1, run, h2]

theorem run_snoc_inv {s s2 : State} {as : List Action} {a : Action}
    (h : run s (as ++ [a]) = some s2) : ∃ s1, run s as = some s1 ∧ step s1 a = some s2 := by
  rw [run_append] at h
  cases h1 : run s as with
  | none => simp [h1] at h
  | some s1 =>
    refine ⟨s1, rfl, ?_⟩
    simp only [h1, Option.some_bind, run] at h
    cases h2 : step s1 a with
    | none => simp [h2] at h
    | some s3 => simpa [h2] using h

theorem Reachable.New : Reachable New := ⟨[], rfl⟩

theorem Reachable.next {s s1 : State} {a : Action} (h : Reachable s)
    (hs : step s a = some s1) : Reachable s1 := by
  obtain ⟨as, h⟩ := h
  exact ⟨as ++ [a], run_snoc h hs⟩

theorem Reachable.induct {P : State → Prop} (h0 : P Spx.New)
    (hs : ∀ s a s1, Reachable s → P s → Spx.step s a = some s1 → P s1) :
    ∀ s, Reachable s → P s := by
  intro s ⟨acts, h⟩
  induction acts using List.reverseRecOn generalizing s with
  | nil => simp only [run, Option.some.injEq] at h; subst h; exact h0
  | append_singleton as a ih =>
    obtain ⟨s0, h1, h2⟩ := run_snoc_inv h
    exact hs s0 a s ⟨as, h1⟩ (ih s0 h1) h2

/-- Every step launches a goroutine from outside, or is a move of one goroutine. -/
theorem step_cases {s s1 : State} {a : Action} (h : step s a = some s1) :
    (s1 = s.spawn PC.start ∨ ∃ th, s1 = s.spawn (PC.resume RPos.lock th false))
    ∨ ∃ g e k, Move s g e k ∧ e.run s g k = some s1 := by
  cases a with
  | create => left; left; simpa [Spx.step, CreateAndStart] using h.symm
  | resume th => left; right; exact ⟨th, by simpa [Spx.step] using h.symm⟩
  | call g c =>
    right
    simp only [Spx.step] at h
    split at h
    · next hb => exact ⟨g, Eff.skip, c.entry, Or.inr ⟨hb, rfl, c, rfl⟩, h⟩
    · simp at h
  | exec g =>
    right
    simp only [Spx.step] at h
    split at h
    · next e k hst => exact ⟨g, e, k, Or.inl hst, h⟩
    · simp at h

/-! ## Locks -/

theorem LockInv.locked_of_holds {holds : PC → Bool} {l : Bool} {pc : Nat → PC}
    (h : LockInv holds l pc) {g : Nat} (hg : holds (pc g) = true) : l = true := by
  cases l with
  | true => rfl
  | false => have := h.free rfl g; simp [hg] at this

theorem LockInv.keep {holds : PC → Bool} {l : Bool} {pc : Nat → PC} (h : LockInv holds l pc)
    (g : Nat) (k : PC) (hk : holds k = true → holds (pc g) = true) :
    LockInv holds l (upd pc g k) := by
  constructor
  · intro i j hi hj
    by_cases ig : i = g <;> by_cases jg : j = g
    · rw [ig, jg]
    · rw [ig, upd_same] at hi; rw [upd_other _ _ jg] at hj
      rw [ig]; exact h.excl g j (hk hi) hj
    · rw [jg, upd_same] at hj; rw [upd_other _ _ ig] at hi
      rw [jg]; exact h.excl i g hi (hk hj)
    · rw [upd_other _ _ ig] at hi; rw [upd_other _ _ jg] at hj
      exact h.excl i j hi hj
  · intro hl i
    by_cases ig : i = g
    · rw [ig, upd_same]
      cases hh : holds k with
      | false => rfl
      | true => have := h.free hl g; rw [hk hh] at this; exact absurd this (by simp)
    · rw [upd_other _ _ ig]; exact h.free hl i

theorem LockInv.acquire {holds : PC → Bool} {pc : Nat → PC} (h : LockInv holds false pc)
    (g : Nat) (k : PC) : LockInv holds true (upd pc g k) := by
  constructor
  · intro i j hi hj
    by_cases ig : i = g <;> by_cases jg : j = g
    · rw [ig, jg]
    · rw [upd_other _ _ jg, h.free rfl j] at hj; exact absurd hj (by simp)
    · rw [upd_other _ _ ig, h.free rfl i] at hi; exact absurd hi (by simp)
    · rw [upd_other _ _ ig, h.free rfl i] at hi; exact absurd hi (by simp)
  · intro hl; exact absurd hl (by simp)

theorem LockInv.release {holds : PC → Bool} {l : Bool} {pc : Nat → PC} (h : LockInv holds l pc)
    (g : Nat) (k : PC) (hg : holds (pc g) = true) (hk : holds k = false) :
    LockInv holds false (upd pc g k) := by
  have key : ∀ i, holds (upd pc g k i) = false := by
    intro i
    by_cases ig : i = g
    · rw [ig, upd_same]; exact hk
    · rw [upd_other _ _ ig]
      cases hh : holds (pc i) with
      | false => rfl
      | true => exact absurd (h.excl i g hh hg) ig
  constructor
  · intro i j hi; rw [key i] at hi; exact absurd hi (by simp)
  · intro _ i; exact key i

theorem LockInv.map {holds : PC → Bool} {l : Bool} {pc : Nat → PC} (h : LockInv holds l pc)
    (f : PC → PC) (hf : ∀ k, holds (f k) = holds k) : LockInv holds l (fun i => f (pc i)) := by
  constructor
  · intro i j hi hj; simp only [hf] at hi hj; exact h.excl i j hi hj
  · intro hl i; simp only [hf]; exact h.free hl i

theorem holdsSema_wake (k : PC) : holdsSema (wake k) = holdsSema k := by
  unfold wake; split <;> simp [holdsSema, YPos.holdsSema]

theorem holdsMutex_wake (k : PC) : holdsMutex (wake k) = holdsMutex k := by
  unfold wake; split <;> simp [holdsMutex, YPos.holdsMutex]

/-! ## First layer: the run lock and `current` -/

theorem published_holds (k : PC) (h : published k = true) : holdsSema k = true := by
  cases k <;> simp_all [published, holdsSema]
  next ky _ _ => cases ky <;> simp_all [YPos.published, YPos.holdsSema]

theorem published_wake (k : PC) : published (wake k) = published k := by
  unfold wake; split <;> simp [published, YPos.published]

theorem Inv1.new1 : Inv1 New := by
  constructor
  · intro i _; rfl
  · constructor <;> simp [New, holdsSema]
  · simp [New, published]
  · simp [New]

theorem wf_upd {p : Nat → PC} {n g : Nat} {k : PC} (h : ∀ i, n ≤ i → p i = PC.none)
    (hg : p g ≠ PC.none) : ∀ i, n ≤ i → upd p g k i = PC.none := by
  intro i hi
  by_cases ig : i = g
  · subst ig; exact absurd (h i hi) hg
  · rw [upd_other _ _ ig]; exact h i hi

theorem cur_upd {p : Nat → PC} {c : Thread} {g : Nat} {k : PC}
    (h : ∀ i, published (p i) = true → c = some i)
    (hk : published k = true → published (p g) = true) :
    ∀ i, published (upd p g k i) = true → c = some i := by
  intro i hi
  by_cases ig : i = g
  · subst ig; rw [upd_same] at hi; exact h i (hk hi)
  · rw [upd_other _ _ ig] at hi; exact h i hi

theorem self_upd {p : Nat → PC} {g : Nat} {k : PC}
    (h : ∀ i ky me hh, p i = PC.yield ky me hh → ky ≠ YPos.check → me = some i)
    (hk : selfOk g k) :
    ∀ i ky me hh, upd p g k i = PC.yield ky me hh → ky ≠ YPos.check → me = some i := by
  intro i ky me hh hi hc
  by_cases ig : i = g
  · subst ig; rw [upd_same] at hi; exact hk ky me hh hi hc
  · rw [upd_other _ _ ig] at hi; exact h i ky me hh hi hc

theorem Inv1.goto {s : State} (hi : Inv1 s) {g : Nat} {k : PC} (hg : s.pc g ≠ PC.none)
    (hs : selfOk g k) (hp : plain1 (s.pc g) k) (m : Bool) (M : Thread → Option Bool) :
    Inv1 ({ s with mutex := m, suspended := M }.goto g k) :=
  ⟨wf_upd hi.wf hg, hi.sema.keep g k hp.1, cur_upd hi.cur hp.2, self_upd hi.self hs⟩

theorem wake_eq_yield {k : PC} {ky : YPos} {me : Thread} {h : Option Nat}
    (hw : wake k = PC.yield ky me h) :
    k = PC.yield ky me h ∨ (ky = YPos.woken ∧ k = PC.yield YPos.parked me h) := by
  revert hw; unfold wake; split
  · intro hw; cases hw; exact Or.inr ⟨rfl, rfl⟩
  · intro hw; exact Or.inl hw

theorem Inv1.run1 {s s1 : State} (hi : Inv1 s) {g : Nat} {e : Eff} {k : PC}
    (hg : s.pc g ≠ PC.none) (hs : selfOk g k) (ho : e.ok1 g (s.pc g) k)
    (h : e.run s g k = some s1) : Inv1 s1 := by
  have hfatal : Inv1 (s.goto g PC.fatal) :=
    hi.goto hg (by intro ky me h hk; cases hk) ⟨by simp [holdsSema], by simp [published]⟩
      s.mutex s.suspended
  cases e with
  | skip =>
    simp only [Eff.run, Option.some.injEq] at h; subst h
    exact hi.goto hg hs ho s.mutex s.suspended
  | lockMutex =>
    simp only [Eff.run] at h
    split_ifs at h
    simp only [Option.some.injEq] at h; subst h
    exact hi.goto hg hs ho true s.suspended
  | unlockMutex =>
    simp only [Eff.run] at h
    split_ifs at h <;> (simp only [Option.some.injEq] at h; subst h)
    · exact hi.goto hg hs ho false s.suspended
    · exact hfatal
  | lockSema =>
    simp only [Eff.run] at h
    split_ifs at h with hl
    simp only [Option.some.injEq] at h; subst h
    have hl : s.sema = false := by simpa using hl
    have hsm := hi.sema
    rw [hl] at hsm
    refine ⟨wf_upd hi.wf hg, hsm.acquire g k, cur_upd hi.cur ?_, self_upd hi.self hs⟩
    intro hk; rw [ho] at hk; exact absurd hk (by simp)
  | unlockSema =>
    simp only [Eff.run] at h
    split_ifs at h <;> (simp only [Option.some.injEq] at h; subst h)
    · refine ⟨wf_upd hi.wf hg, hi.sema.release g k ho.1 ho.2, cur_upd hi.cur ?_,
        self_upd hi.self hs⟩
      intro hk; have := published_holds k hk; rw [ho.2] at this; exact absurd this (by simp)
    · exact hfatal
  | setCurrent t =>
    simp only [Eff.run, Option.some.injEq] at h; subst h
    obtain ⟨rfl, hh⟩ := ho
    refine ⟨wf_upd hi.wf hg, hi.sema.keep g k (fun _ => hh), ?_, self_upd hi.self hs⟩
    intro i hp
    by_cases ig : i = g
    · rw [ig]; rfl
    · simp only [State.goto] at hp
      rw [upd_other _ _ ig] at hp
      exact absurd (hi.sema.excl i g (published_holds _ hp) hh) ig
  | setSuspended t v =>
    simp only [Eff.run, Option.some.injEq] at h; subst h
    exact hi.goto hg hs ho s.mutex _
  | broadcast =>
    simp only [Eff.run, Option.some.injEq] at h; subst h
    have hw : wake (s.pc g) ≠ PC.none := by
      intro hw; apply hg; revert hw; unfold wake; split <;> simp
    refine ⟨wf_upd (p := fun i => wake (s.pc i)) ?_ hw,
      (hi.sema.map wake holdsSema_wake).keep g k ?_,
      cur_upd (p := fun i => wake (s.pc i)) ?_ ?_,
      self_upd (p := fun i => wake (s.pc i)) ?_ hs⟩
    · intro i hn; simp only [hi.wf i hn, wake]
    · simp only [holdsSema_wake]; exact ho.1
    · intro i hp; rw [published_wake] at hp; exact hi.cur i hp
    · simp only [published_wake]; exact ho.2
    · intro i ky me hh hp hc
      rcases wake_eq_yield hp with hp | ⟨_, hp⟩
      · exact hi.self i ky me hh hp hc
      · exact hi.self i YPos.parked me hh hp (by simp)
  | go k1 =>
    simp only [Eff.run, Option.some.injEq] at h; subst h
    obtain ⟨hp, hk1, hy⟩ := ho
    have hn : s.pc s.ngo = PC.none := hi.wf _ le_rfl
    have gn : g ≠ s.ngo := by intro hgn; rw [hgn] at hg; exact hg hn
    have hpcg : upd s.pc s.ngo k1 g = s.pc g := upd_other _ _ gn
    have h1 : LockInv holdsSema s.sema (upd s.pc s.ngo k1) :=
      hi.sema.keep _ _ (fun hh => by rw [hk1] at hh; exact absurd hh (by simp))
    refine ⟨?_, h1.keep g k (by rw [hpcg]; exact hp.1),
      cur_upd ?_ (by simp only [State.spawn]; rw [hpcg]; exact hp.2), self_upd ?_ hs⟩
    · intro i hle
      simp only [State.goto, State.spawn] at hle ⊢
      have ig : i ≠ g := by
        intro ig; subst ig; exact hg (hi.wf i (by omega))
      rw [upd_other _ _ ig, upd_other _ _ (by omega)]
      exact hi.wf i (by omega)
    · simp only [State.spawn]
      refine cur_upd hi.cur ?_
      intro hh; have := published_holds _ hh; rw [hk1] at this; exact absurd this (by simp)
    · simp only [State.spawn]
      refine self_upd hi.self ?_
      intro ky me h hk; exact absurd hk (hy ky me h)

theorem Move.pc_ne_none {s : State} {g : Nat} {e : Eff} {k : PC} (hm : Move s g e k) :
    s.pc g ≠ PC.none := by
  intro hn
  rcases hm with hst | ⟨hb, _⟩
  · rw [hn] at hst; simp [stmt, goroutine] at hst
  · rw [hn] at hb; cases hb

theorem Move.selfOk {s : State} {g : Nat} {e : Eff} {k : PC} (hm : Move s g e k)
    (hi : Inv1 s) : selfOk g k := by
  intro ky me h hk hc
  rcases hm with hst | ⟨hb, _, c, rfl⟩
  · generalize hk0 : s.pc g = k0 at hst
    cases k0 with
    | yield ky0 me0 h0 =>
      have hself := hi.self g ky0 me0 h0 hk0
      have hcur := hi.cur g
      rw [hk0] at hcur
      cases ky0 <;> simp only [stmt, Yield] at hst <;> (try split_ifs at hst with hcc) <;>
        simp only [Option.some.injEq, Prod.mk.injEq, reduceCtorEq] at hst <;>
        obtain ⟨_, rfl⟩ := hst <;> cases hk <;>
        first
          | exact absurd rfl hc
          | (simp only [Current, ne_eq, not_not] at hcc; rw [← hcc]; exact hcur rfl)
          | exact hself (by decide)
    | resume kr th b =>
      cases kr <;> simp only [stmt, Resume] at hst <;> (try split_ifs at hst) <;>
        simp only [Option.some.injEq, Prod.mk.injEq] at hst <;>
        obtain ⟨_, rfl⟩ := hst <;> cases hk
    | sched me0 =>
      simp only [stmt, Sched, Option.some.injEq, Prod.mk.injEq] at hst
      obtain ⟨_, rfl⟩ := hst
      cases hk; exact absurd rfl hc
    | _ =>
      simp only [stmt, goroutine, Option.some.injEq, Prod.mk.injEq, reduceCtorEq] at hst <;>
        obtain ⟨_, rfl⟩ := hst <;> cases hk
  · cases c <;> simp only [Call.entry] at hk <;> cases hk
    exact absurd rfl hc

theorem Move.ok1 {s : State} {g : Nat} {e : Eff} {k : PC} (hm : Move s g e k)
    (hi : Inv1 s) : e.ok1 g (s.pc g) k := by
  rcases hm with hst | ⟨hb, rfl, c, rfl⟩
  · generalize hk0 : s.pc g = k0 at hst
    cases k0 with
    | yield ky0 me0 h0 =>
      have hself := hi.self g ky0 me0 h0 hk0
      cases ky0 <;> simp only [stmt, Yield] at hst <;> (try split_ifs at hst with hcc) <;>
        simp only [Option.some.injEq, Prod.mk.injEq, reduceCtorEq] at hst <;>
        obtain ⟨rfl, rfl⟩ := hst <;>
        simp [Eff.ok1, plain1, holdsSema, published, YPos.holdsSema, YPos.published]
      exact hself (by decide)
    | resume kr th b =>
      cases kr <;> simp only [stmt, Resume] at hst <;> (try split_ifs at hst) <;>
        simp only [Option.some.injEq, Prod.mk.injEq] at hst <;>
        obtain ⟨rfl, rfl⟩ := hst <;>
        simp_all [Eff.ok1, plain1, holdsSema, published]
    | sched me0 =>
      simp only [stmt, Sched, Option.some.injEq, Prod.mk.injEq] at hst
      obtain ⟨rfl, rfl⟩ := hst
      simp [Eff.ok1, plain1, holdsSema, published, YPos.holdsSema, YPos.published]
    | _ =>
      simp only [stmt, goroutine, Option.some.injEq, Prod.mk.injEq, reduceCtorEq] at hst <;>
        obtain ⟨rfl, rfl⟩ := hst <;>
        simp [Eff.ok1, plain1, holdsSema, published]
  · rw [hb]
    cases c <;>
      simp [Call.entry, Eff.ok1, plain1, holdsSema, published, YPos.holdsSema, YPos.published]

theorem Inv1.step1 {s s1 : State} {a : Action} (hi : Inv1 s) (h : step s a = some s1) :
    Inv1 s1 := by
  have hn : s.pc s.ngo = PC.none := hi.wf _ le_rfl
  have hsp : ∀ k1, holdsSema k1 = false → (∀ ky me h, k1 ≠ PC.yield ky me h) →
      Inv1 (s.spawn k1) := by
    intro k1 hk1 hy
    refine ⟨?_, hi.sema.keep _ _ (fun hh => by rw [hk1] at hh; exact absurd hh (by simp)),
      cur_upd hi.cur ?_, self_upd hi.self ?_⟩
    · intro i hle
      simp only [State.spawn] at hle ⊢
      rw [upd_other _ _ (by omega)]
      exact hi.wf i (by omega)
    · intro hh; have := published_holds _ hh; rw [hk1] at this; exact absurd this (by simp)
    · intro ky me h hk; exact absurd hk (hy ky me h)
  rcases step_cases h with (rfl | ⟨th, rfl⟩) | ⟨g, e, k, hm, hr⟩
  · exact hsp _ rfl (by intro ky me h hk; cases hk)
  · exact hsp _ rfl (by intro ky me h hk; cases hk)
  · exact hi.run1 hm.pc_ne_none (hm.selfOk hi) (hm.ok1 hi) hr

theorem Reachable.inv1 {s : State} (h : Reachable s) : Inv1 s :=
  Reachable.induct Inv1.new1 (fun _ _ _ _ hi hs => hi.step1 hs) s h

/-! ## Second layer: the state mutex and the map -/

theorem flag_eq_true {s : State} {t : Thread} : s.flag t = true ↔ s.suspended t = some true := by
  unfold State.flag
  cases s.suspended t with
  | none => simp
  | some b => simp

theorem inLoop_wake (k : PC) : inLoop (wake k) = inLoop k := by
  unfold wake; split <;> simp [inLoop, YPos.inLoop]

theorem absent_wake (k : PC) : absent (wake k) = absent k := by
  unfold wake; split <;> simp [absent]

theorem wake_eq_resume {k : PC} {kr : RPos} {th : Thread} {b : Bool}
    (hw : wake k = PC.resume kr th b) : k = PC.resume kr th b := by
  revert hw; unfold wake; split
  · intro hw; cases hw
  · intro hw; exact hw

theorem inLoop_not_absent {k : PC} (h : inLoop k = true) : absent k = false := by
  cases k <;> simp_all [inLoop, absent]

theorem MapInv.newMap : MapInv New.suspended New.pc := by
  constructor <;> simp [New]

theorem MapInv.same {M : Thread → Option Bool} {pc : Nat → PC} (h : MapInv M pc)
    {g : Nat} {k : PC} (hf : frame2 M g (pc g) k) : MapInv M (upd pc g k) := by
  obtain ⟨hl, ha, hs⟩ := hf
  constructor
  · intro t ht
    obtain ⟨i, rfl, hi⟩ := h.susp t ht
    refine ⟨i, rfl, ?_⟩
    by_cases ig : i = g
    · subst ig; rw [upd_same]
      rcases hl hi with h1 | h1
      · exact h1
      · exact absurd ht h1
    · rw [upd_other _ _ ig]; exact hi
  · intro i hi
    by_cases ig : i = g
    · subst ig; rw [upd_same] at hi; exact h.gone i (ha hi)
    · rw [upd_other _ _ ig] at hi; exact h.gone i hi
  · exact h.nil
  · intro i th b hi
    by_cases ig : i = g
    · subst ig; rw [upd_same] at hi; exact hs th b hi
    · rw [upd_other _ _ ig] at hi; exact h.store i th b hi

theorem MapInv.broadcast {M : Thread → Option Bool} {pc : Nat → PC} (h : MapInv M pc) :
    MapInv M (fun i => wake (pc i)) := by
  constructor
  · intro t ht
    obtain ⟨i, rfl, hi⟩ := h.susp t ht
    exact ⟨i, rfl, by simp only [inLoop_wake]; exact hi⟩
  · intro i hi; simp only [absent_wake] at hi; exact h.gone i hi
  · exact h.nil
  · intro i th b hi; exact h.store i th b (wake_eq_resume hi)

/-- A write of the map by the goroutine `g` that holds the mutex. -/
theorem MapInv.write {M : Thread → Option Bool} {pc : Nat → PC} (h : MapInv M pc)
    (hm : LockInv holdsMutex true pc) {g : Nat} {k : PC} {t : Thread} {v : Option Bool}
    (hg : holdsMutex (pc g) = true) (hl0 : inLoop (pc g) = false)
    (hk : ∀ th b, k ≠ PC.resume RPos.store th b)
    (hv : (v = some true ∧ t = some g ∧ inLoop k = true)
        ∨ (v = some false ∧ M t = some true ∧ inLoop k = false ∧
            (absent k = true → absent (pc g) = true))
        ∨ (v = Option.none ∧ t = some g ∧ inLoop k = false)) :
    MapInv (upd M t v) (upd pc g k) := by
  have hstore : ∀ i th b, upd pc g k i ≠ PC.resume RPos.store th b := by
    intro i th b hi
    by_cases ig : i = g
    · subst ig; rw [upd_same] at hi; exact hk th b hi
    · rw [upd_other _ _ ig] at hi
      exact ig (hm.excl i g (by rw [hi]; rfl) hg)
  have hsusp : ∀ t1, t1 ≠ t → M t1 = some true →
      ∃ i, t1 = some i ∧ inLoop (upd pc g k i) = true := by
    intro t1 _ ht1
    obtain ⟨i, rfl, hi⟩ := h.susp _ ht1
    refine ⟨i, rfl, ?_⟩
    have ig : i ≠ g := by intro ig; subst ig; rw [hl0] at hi; exact absurd hi (by simp)
    rw [upd_other _ _ ig]; exact hi
  have hnil : t ≠ Option.none → upd M t v Option.none = Option.none := by
    intro ht; rw [upd_other _ _ (Ne.symm ht)]; exact h.nil
  constructor
  · intro t1 ht1
    by_cases e : t1 = t
    · subst e
      rw [upd_same] at ht1
      rcases hv with ⟨_, rfl, hk1⟩ | ⟨rfl, _, _⟩ | ⟨rfl, _, _⟩
      · exact ⟨g, rfl, by rw [upd_same]; exact hk1⟩
      · cases ht1
      · cases ht1
    · rw [upd_other _ _ e] at ht1; exact hsusp t1 e ht1
  · intro i hi
    by_cases ig : i = g
    · subst ig
      rw [upd_same] at hi
      rcases hv with ⟨_, _, hk1⟩ | ⟨_, _, _, hk1⟩ | ⟨rfl, rfl, _⟩
      · rw [inLoop_not_absent hk1] at hi; exact absurd hi (by simp)
      · rename_i hv1 _
        have hn := h.gone i (hk1 hi)
        rw [upd_other _ _ (by intro e; rw [← e, hn] at hv1; cases hv1)]
        exact hn
      · rw [upd_same]
    · rw [upd_other _ _ ig] at hi
      have := h.gone i hi
      by_cases e : some i = t
      · subst e
        rcases hv with ⟨_, e1, _⟩ | ⟨_, e1, _⟩ | ⟨_, e1, _⟩
        · exact absurd (Option.some.inj e1) ig
        · rw [this] at e1; cases e1
        · exact absurd (Option.some.inj e1) ig
      · rw [upd_other _ _ e]; exact this
  · rcases hv with ⟨_, rfl, _⟩ | ⟨_, e1, _⟩ | ⟨_, rfl, _⟩
    · exact hnil (by simp)
    · exact hnil (by intro e; rw [e, h.nil] at e1; cases e1)
    · exact hnil (by simp)
  · intro i th b hi; exact absurd hi (hstore i th b)

theorem Inv2.new2 : Inv2 New :=
  ⟨by constructor <;> simp [New, holdsMutex], MapInv.newMap⟩

theorem Inv2.spawn {s : State} (h1 : Inv1 s) (h2 : Inv2 s) {k1 : PC}
    (hm : holdsMutex k1 = false) : Inv2 (s.spawn k1) := by
  have hn : s.pc s.ngo = PC.none := h1.wf _ le_rfl
  refine ⟨h2.mutex.keep _ _ (fun hh => by rw [hm] at hh; exact absurd hh (by simp)),
    h2.map.same ⟨?_, ?_, ?_⟩⟩
  · intro hh; rw [hn] at hh; exact absurd hh (by simp [inLoop])
  · intro _; rw [hn]; rfl
  · intro th b hk; rw [hk] at hm; exact absurd hm (by simp [holdsMutex, RPos.holdsMutex])

theorem Inv2.run2 {s s1 : State} (h1 : Inv1 s) (h2 : Inv2 s) {g : Nat} {e : Eff} {k : PC}
    (hg : s.pc g ≠ PC.none) (ho1 : e.ok1 g (s.pc g) k) (ho : e.ok2 s g (s.pc g) k)
    (h : e.run s g k = some s1) : Inv2 s1 := by
  cases e with
  | skip =>
    simp only [Eff.run, Option.some.injEq] at h; subst h
    exact ⟨h2.mutex.keep g k ho.1, h2.map.same ho.2⟩
  | lockMutex =>
    simp only [Eff.run] at h
    split_ifs at h with hl
    simp only [Option.some.injEq] at h; subst h
    have hl : s.mutex = false := by simpa using hl
    have hmx := h2.mutex
    rw [hl] at hmx
    exact ⟨hmx.acquire g k, h2.map.same ho⟩
  | unlockMutex =>
    simp only [Eff.run] at h
    split_ifs at h with hl <;> (simp only [Option.some.injEq] at h; subst h)
    · exact ⟨h2.mutex.release g k ho.1 ho.2.1, h2.map.same ho.2.2⟩
    · exact absurd (h2.mutex.locked_of_holds ho.1) hl
  | lockSema =>
    simp only [Eff.run] at h
    split_ifs at h
    simp only [Option.some.injEq] at h; subst h
    exact ⟨h2.mutex.keep g k ho.1, h2.map.same ho.2⟩
  | unlockSema =>
    simp only [Eff.run] at h
    split_ifs at h with hl <;> (simp only [Option.some.injEq] at h; subst h)
    · exact ⟨h2.mutex.keep g k ho.1, h2.map.same ho.2⟩
    · exact absurd (h1.sema.locked_of_holds ho1.1) hl
  | setCurrent t =>
    simp only [Eff.run, Option.some.injEq] at h; subst h
    exact ⟨h2.mutex.keep g k ho.1, h2.map.same ho.2⟩
  | setSuspended t v =>
    simp only [Eff.run, Option.some.injEq] at h; subst h
    obtain ⟨hh, hl0, hk, hv⟩ := ho
    have hmx := h2.mutex
    rw [h2.mutex.locked_of_holds hh] at hmx
    exact ⟨h2.mutex.keep g k (fun _ => hh), h2.map.write hmx hh hl0 hk hv⟩
  | broadcast =>
    simp only [Eff.run, Option.some.injEq] at h; subst h
    obtain ⟨hm, hl, ha, hs⟩ := ho
    refine ⟨(h2.mutex.map wake holdsMutex_wake).keep g k ?_,
      (h2.map.broadcast).same ⟨?_, ?_, hs⟩⟩
    · simp only [holdsMutex_wake]; exact hm
    · simp only [inLoop_wake]; exact hl
    · simp only [absent_wake]; exact ha
  | go k1 =>
    simp only [Eff.run, Option.some.injEq] at h; subst h
    obtain ⟨hm, hf, hm1, _⟩ := ho
    have hn : s.pc s.ngo = PC.none := h1.wf _ le_rfl
    have gn : g ≠ s.ngo := by intro hgn; rw [hgn] at hg; exact hg hn
    have hpcg : (s.spawn k1).pc g = s.pc g := upd_other _ _ gn
    have hsp := Inv2.spawn h1 h2 hm1
    refine ⟨hsp.mutex.keep g k ?_, hsp.map.same ?_⟩
    · rw [hpcg]; exact hm
    · rw [hpcg]; exact hf

theorem Move.ok2 {s : State} {g : Nat} {e : Eff} {k : PC} (hm : Move s g e k)
    (h1 : Inv1 s) (h2 : Inv2 s) : e.ok2 s g (s.pc g) k := by
  rcases hm with hst | ⟨hb, rfl, c, rfl⟩
  · generalize hk0 : s.pc g = k0 at hst
    cases k0 with
    | yield ky0 me0 h0 =>
      have hself := h1.self g ky0 me0 h0 hk0
      cases ky0 <;> simp only [stmt, Yield] at hst <;> (try split_ifs at hst with hcc) <;>
        simp only [Option.some.injEq, Prod.mk.injEq, reduceCtorEq] at hst <;>
        obtain ⟨rfl, rfl⟩ := hst <;>
        simp [Eff.ok2, mutexSame, frame2, holdsMutex, inLoop, absent, YPos.holdsMutex,
          YPos.inLoop]
      · exact hself (by decide)
      · have := hself (by decide)
        subst this
        rw [flag_eq_true] at hcc
        exact hcc
    | resume kr th b =>
      have hstore := h2.map.store g th b
      cases kr <;> simp only [stmt, Resume] at hst <;> (try split_ifs at hst with hcc) <;>
        simp only [Option.some.injEq, Prod.mk.injEq] at hst <;>
        obtain ⟨rfl, rfl⟩ := hst <;>
        simp_all [Eff.ok2, mutexSame, frame2, holdsMutex, inLoop, absent, RPos.holdsMutex,
          flag_eq_true]
    | sched me0 =>
      simp only [stmt, Sched, Option.some.injEq, Prod.mk.injEq] at hst
      obtain ⟨rfl, rfl⟩ := hst
      simp [Eff.ok2, mutexSame, frame2, holdsMutex, inLoop, absent, YPos.holdsMutex,
        RPos.holdsMutex, YPos.inLoop]
    | _ =>
      simp only [stmt, goroutine, Option.some.injEq, Prod.mk.injEq, reduceCtorEq] at hst <;>
        obtain ⟨rfl, rfl⟩ := hst <;>
        simp [Eff.ok2, mutexSame, frame2, holdsMutex, inLoop, absent]
  · rw [hb]
    cases c <;>
      simp [Call.entry, Eff.ok2, mutexSame, frame2, holdsMutex, inLoop, absent,
        YPos.holdsMutex, RPos.holdsMutex]

theorem Inv2.step2 {s s1 : State} {a : Action} (h1 : Inv1 s) (h2 : Inv2 s)
    (h : step s a = some s1) : Inv2 s1 := by
  rcases step_cases h with (rfl | ⟨th, rfl⟩) | ⟨g, e, k, hm, hr⟩
  · exact Inv2.spawn h1 h2 rfl
  · exact Inv2.spawn h1 h2 rfl
  · exact Inv2.run2 h1 h2 hm.pc_ne_none (hm.ok1 h1) (hm.ok2 h1 h2) hr

theorem Reachable.inv12 {s : State} (h : Reachable s) : Inv1 s ∧ Inv2 s :=
  Reachable.induct (P := fun s => Inv1 s ∧ Inv2 s) ⟨Inv1.new1, Inv2.new2⟩
    (fun _ _ _ _ hi hs => ⟨hi.1.step1 hs, Inv2.step2 hi.1 hi.2 hs⟩) s h

theorem Reachable.inv2 {s : State} (h : Reachable s) : Inv2 s := h.inv12.2

/-! ## The claims about the run lock, `current` and the map -/

/-- C1 (mutual exclusion).  In every reachable state at most one goroutine is between
acquiring the run lock `sema` (line 73, or line 111 at the end of `Yield`) and releasing
it (line 102 at the start of `Yield`, or line 80 after its body returned): when
goroutine `i` is there, every other goroutine `j` is not, and `sema` is locked. -/
theorem mutual_exclusion (s : State) (hr : Reachable s) (i j : Nat) (hij : i ≠ j)
    (hi : holdsSema (s.pc i) = true) : holdsSema (s.pc j) = false ∧ s.sema = true := by
  have h1 := hr.inv1
  refine ⟨?_, h1.sema.locked_of_holds hi⟩
  cases hj : holdsSema (s.pc j) with
  | false => rfl
  | true => exact absurd (h1.sema.excl i j hi hj) hij

theorem mutual_exclusion_witness :
    Reachable (reach runTwoThreads) ∧ (reach runTwoThreads).pc 0 = PC.body
      ∧ holdsSema ((reach runTwoThreads).pc 1) = false ∧ (reach runTwoThreads).sema = true :=
  ⟨⟨runTwoThreads, rfl⟩, rfl,
    mutual_exclusion (reach runTwoThreads) ⟨runTwoThreads, rfl⟩ 0 1 (by decide) rfl⟩

/-- C2 (misuse detection).  In every state, a goroutine `g` at the check of `Yield(me)`
(line 98): when `me != Current()` its step panics with
`ErrCannotYieldANonrunningThread`, whose text is "can not yield a non-running thread",
and changes nothing but the program counter of `g`: the map, `current`, the run lock,
the mutex and all other goroutines are as before.  When `me == Current()` the step goes
on to line 102 without a panic; and no later statement of `Yield` panics, so a panic
of `Yield(me)` implies `me != Current()` at the check. -/
theorem yield_misuse (s : State) (g : Nat) (me : Thread) (h : Option Nat)
    (hpc : s.pc g = PC.yield YPos.check me h) :
    (Current s ≠ me →
      step s (Action.exec g) = some (s.goto g (PC.panicked ErrCannotYieldANonrunningThread))
      ∧ ErrCannotYieldANonrunningThread = "can not yield a non-running thread"
      ∧ (s.goto g (PC.panicked ErrCannotYieldANonrunningThread)).suspended = s.suspended
      ∧ (s.goto g (PC.panicked ErrCannotYieldANonrunningThread)).current = s.current
      ∧ (s.goto g (PC.panicked ErrCannotYieldANonrunningThread)).sema = s.sema
      ∧ (s.goto g (PC.panicked ErrCannotYieldANonrunningThread)).mutex = s.mutex
      ∧ ∀ i, i ≠ g → (s.goto g (PC.panicked ErrCannotYieldANonrunningThread)).pc i = s.pc i)
    ∧ (Current s = me →
      step s (Action.exec g) = some (s.goto g (PC.yield YPos.release me h)))
    ∧ (∀ (s0 s1 : State) (k : YPos) (err : String), s0.pc g = PC.yield k me h →
        step s0 (Action.exec g) = some s1 → s1.pc g = PC.panicked err →
        k = YPos.check ∧ Current s0 ≠ me ∧ err = ErrCannotYieldANonrunningThread) := by
  refine ⟨?_, ?_, ?_⟩
  · intro hc
    refine ⟨?_, rfl, rfl, rfl, rfl, rfl, ?_⟩
    · simp [step, hpc, stmt, Yield, hc, Eff.run]
    · intro i hi; exact upd_other _ _ hi
  · intro hc
    simp [step, hpc, stmt, Yield, hc, Eff.run]
  · intro s0 s1 k err hk hs hp
    simp only [step, hk, stmt] at hs
    cases k <;> simp only [Yield] at hs <;> (try split_ifs at hs with hc) <;>
      (try simp only [Eff.run] at hs) <;> (try split_ifs at hs) <;>
      (try simp only [Option.some.injEq, reduceCtorEq] at hs) <;> (try subst hs) <;>
      (try simp only [State.goto, upd_same, PC.panicked.injEq, reduceCtorEq] at hp)
    exact ⟨rfl, hc, hp.symm⟩

theorem yield_misuse_witness :
    (reach runYieldOther).pc 0 = PC.yield YPos.check (some 1) Option.none
    ∧ Current (reach runYieldOther) = some 0
    ∧ step (reach runYieldOther) (Action.exec 0)
        = some ((reach runYieldOther).goto 0 (PC.panicked ErrCannotYieldANonrunningThread)) :=
  ⟨rfl, rfl, ((yield_misuse (reach runYieldOther) 0 (some 1) Option.none rfl).1 (by decide)).1⟩

/-- C6 (identity correctness).  `CreateAndStart` returns the identity `some n` of the
goroutine `n` it launches.  In every reachable state, whenever goroutine `t` executes
its body (or manager code called from it, up to the release of the run lock in `Yield`
or after the body returned), `Current()` is `some t`.  And the last statement of
`Yield(me)` (line 112) returns into the body with `Current() == me`, `me` being the
identity of the caller, and with the run lock held by the caller. -/
theorem identity_correctness (s : State) (hr : Reachable s) (t : Nat) :
    ((CreateAndStart s).1 = some s.ngo ∧ (CreateAndStart s).2.pc s.ngo = PC.start)
    ∧ (published (s.pc t) = true → Current s = some t)
    ∧ (∀ me h, s.pc t = PC.yield YPos.publish me h →
        ∃ s1, step s (Action.exec t) = some s1 ∧ s1.pc t = PC.body ∧ Current s1 = me
          ∧ me = some t ∧ s1.sema = true ∧ holdsSema (s1.pc t) = true) := by
  have h1 := hr.inv1
  refine ⟨⟨rfl, upd_same _ _ _⟩, h1.cur t, ?_⟩
  intro me h hpc
  have hme : me = some t := h1.self t _ me h hpc (by decide)
  have hs : holdsSema (s.pc t) = true := by rw [hpc]; rfl
  refine ⟨{ s with current := me }.goto t PC.body, ?_, upd_same _ _ _, by rfl, hme,
    h1.sema.locked_of_holds hs, ?_⟩
  · simp [step, hpc, stmt, Yield, Eff.run]
  · simp [State.goto, holdsSema]

theorem identity_correctness_witness :
    Reachable (reach runTwoThreads) ∧ published ((reach runTwoThreads).pc 0) = true
      ∧ Current (reach runTwoThreads) = some 0 :=
  ⟨⟨runTwoThreads, rfl⟩, rfl,
    (identity_correctness (reach runTwoThreads) ⟨runTwoThreads, rfl⟩ 0).2.1 rfl⟩

/-- C7, as stated, fails: a thread calls `Yield(me)` and is about to release the run
lock (line 102) while `me` is not a key of the map; it releases the lock, and a second
thread takes the run lock and runs its body while `me` is still not recorded as
suspended. -/
theorem yield_order_counterexample :
    (Reachable (reach runYieldRelease)
      ∧ (reach runYieldRelease).pc 0 = PC.yield YPos.release (some 0) Option.none
      ∧ Current (reach runYieldRelease) = some 0
      ∧ (reach runYieldRelease).suspended (some 0) = Option.none)
    ∧ (Reachable (reach runYieldOvertaken)
      ∧ (reach runYieldOvertaken).pc 0 = PC.yield YPos.lock (some 0) Option.none
      ∧ (reach runYieldOvertaken).pc 1 = PC.body
      ∧ (reach runYieldOvertaken).suspended (some 0) = Option.none) :=
  ⟨⟨⟨runYieldRelease, rfl⟩, rfl, rfl, rfl⟩, ⟨⟨runYieldOvertaken, rfl⟩, rfl, rfl, rfl⟩⟩

/-- C7, amended.  `Yield(me)` releases the run lock first and records `me` as suspended
afterwards: its statements are, in this order, release `sema` (line 102), lock `mutex`
(104), `suspended[me] = true` (105), the wait loop (106-108), unlock `mutex` (109),
acquire `sema` (111), `current = me` (112).  In every reachable state in which a
goroutine `g` is about to release `sema` in `Yield(me)`, `me` is its own identity and is
`Current()`, `sema` is locked, `suspended[me]` is not true, and the step releases `sema`
and changes nothing else of the manager. -/
theorem yield_order (s : State) (hr : Reachable s) (g : Nat) (me : Thread) (h : Option Nat)
    (hpc : s.pc g = PC.yield YPos.release me h) :
    (me = some g ∧ Current s = me ∧ s.sema = true ∧ s.suspended me ≠ some true
      ∧ step s (Action.exec g) = some ({ s with sema := false }.goto g (PC.yield YPos.lock me h)))
    ∧ (Yield s me h YPos.release = some (Eff.unlockSema, PC.yield YPos.lock me h)
      ∧ Yield s me h YPos.lock = some (Eff.lockMutex, PC.yield YPos.set me h)
      ∧ Yield s me h YPos.set = some (Eff.setSuspended me (some true), PC.yield YPos.test me h)
      ∧ Yield s me h YPos.unlock = some (Eff.unlockMutex, PC.yield YPos.acquire me h)
      ∧ Yield s me h YPos.acquire = some (Eff.lockSema, PC.yield YPos.publish me h)
      ∧ Yield s me h YPos.publish = some (Eff.setCurrent me, PC.body)) := by
  have h1 := hr.inv1
  have h2 := hr.inv2
  have hme : me = some g := h1.self g _ me h hpc (by decide)
  have hcur : s.current = some g := h1.cur g (by rw [hpc]; rfl)
  have hsema : s.sema = true := h1.sema.locked_of_holds (g := g) (by rw [hpc]; rfl)
  refine ⟨⟨hme, by rw [hme]; exact hcur, hsema, ?_, ?_⟩, rfl, rfl, rfl, rfl, rfl, rfl⟩
  · intro ht
    obtain ⟨i, hi, hl⟩ := h2.map.susp me ht
    rw [hme] at hi
    cases hi
    rw [hpc] at hl
    exact absurd hl (by simp [inLoop, YPos.inLoop])
  · simp [step, hpc, stmt, Yield, Eff.run, hsema]

theorem yield_order_witness :
    (reach runYieldRelease).pc 0 = PC.yield YPos.release (some 0) Option.none
    ∧ (reach runYieldRelease).suspended (some 0) ≠ some true :=
  ⟨rfl, (yield_order (reach runYieldRelease) ⟨runYieldRelease, rfl⟩ 0 (some 0)
    Option.none rfl).1.2.2.2.1⟩

/-- C8, as stated, fails: after `Resume` cleared the flag of a parked thread (line 122),
the thread is still parked inside the wait loop of `Yield`, in `Wait`, while
`suspended[t]` is false. -/
theorem suspended_iff_parked_counterexample :
    Reachable (reach runResumeStored)
    ∧ (reach runResumeStored).pc 0 = PC.yield YPos.parked (some 0) Option.none
    ∧ inLoop ((reach runResumeStored).pc 0) = true
    ∧ (reach runResumeStored).suspended (some 0) = some false :=
  ⟨⟨runResumeStored, rfl⟩, rfl, rfl, rfl⟩

/-- C8, amended.  In every reachable state, `suspended[t] == true` holds only when `t`
is the identity of a goroutine that is parked inside the wait loop of `Yield` (after
line 105, before leaving the loop of lines 106-108); such a goroutine does not hold the
run lock and does not execute body code.  The nil thread is never a key, and a
goroutine that has executed the `delete` of line 77 (or has not started its body, or
is no logical thread) is not a key of the map. -/
theorem suspended_only_parked (s : State) (hr : Reachable s) :
    (∀ t : Thread, s.suspended t = some true →
      ∃ i, t = some i ∧ inLoop (s.pc i) = true ∧ holdsSema (s.pc i) = false
        ∧ published (s.pc i) = false ∧ ∃ k h, s.pc i = PC.yield k t h)
    ∧ s.suspended Option.none = Option.none
    ∧ (∀ i, absent (s.pc i) = true → s.suspended (some i) = Option.none) := by
  have h1 := hr.inv1
  have h2 := hr.inv2
  refine ⟨?_, h2.map.nil, h2.map.gone⟩
  intro t ht
  obtain ⟨i, rfl, hl⟩ := h2.map.susp t ht
  refine ⟨i, rfl, hl, ?_⟩
  cases hk : s.pc i with
  | yield k me h =>
    rw [hk] at hl
    have hme : me = some i := h1.self i k me h hk (by intro e; subst e; simp [inLoop, YPos.inLoop] at hl)
    subst hme
    refine ⟨?_, ?_, k, h, rfl⟩ <;>
      cases k <;> simp_all [inLoop, YPos.inLoop, holdsSema, YPos.holdsSema, published, YPos.published]
  | _ => rw [hk] at hl; simp [inLoop] at hl

theorem suspended_only_parked_witness :
    Reachable (reach runYieldParked) ∧ (reach runYieldParked).suspended (some 0) = some true
    ∧ ∃ i, some 0 = some i ∧ inLoop ((reach runYieldParked).pc i) = true
        ∧ holdsSema ((reach runYieldParked).pc i) = false
        ∧ published ((reach runYieldParked).pc i) = false
        ∧ ∃ k h, (reach runYieldParked).pc i = PC.yield k (some 0) h :=
  ⟨⟨runYieldParked, rfl⟩, rfl,
    (suspended_only_parked (reach runYieldParked) ⟨runYieldParked, rfl⟩).1 (some 0) rfl⟩

/-! ## matrix.go: inverse -/

/-- C10 (matrix inverse round trip).  Over any field (the float64 operations read as
exact arithmetic), for a matrix `m` with `m.A*m.D - m.B*m.C ≠ 0` and every point
`(x, y)`: `ApplyInverse` undoes `Apply`, `Apply` undoes `ApplyInverse`, and the matrix
left by `Invert` maps points with `TransformPoint` exactly as `ApplyInverse` of the
original matrix does. -/
theorem matrix_inverse_round_trip {K : Type} [Field K] (m : Matrix K) (x y : K)
    (h : m.A * m.D - m.B * m.C ≠ 0) :
    m.ApplyInverse (m.Apply x y).1 (m.Apply x y).2 = (x, y)
    ∧ m.Apply (m.ApplyInverse x y).1 (m.ApplyInverse x y).2 = (x, y)
    ∧ m.Invert.TransformPoint x y = m.ApplyInverse x y := by
  have e : m.A * m.D + m.C * -m.B = m.A * m.D - m.B * m.C := by ring
  refine ⟨?_, ?_, ?_⟩
  · simp only [Matrix.ApplyInverse, Matrix.Apply, Prod.mk.injEq, e]
    constructor <;> field_simp <;> ring
  · simp only [Matrix.ApplyInverse, Matrix.Apply, Prod.mk.injEq, e]
    constructor <;> field_simp <;> ring
  · simp only [Matrix.ApplyInverse, Matrix.Invert, Matrix.TransformPoint, Prod.mk.injEq, e]
    constructor <;> field_simp <;> ring

theorem matrix_inverse_round_trip_witness :
    (2 : ℚ) * 1 - 1 * 1 ≠ 0
    ∧ (Matrix.mk (2 : ℚ) 1 1 1 3 4).ApplyInverse
        ((Matrix.mk (2 : ℚ) 1 1 1 3 4).Apply 5 7).1 ((Matrix.mk (2 : ℚ) 1 1 1 3 4).Apply 5 7).2
        = (5, 7)
    ∧ (Matrix.mk (2 : ℚ) 1 1 1 3 4).Invert.TransformPoint 5 7
        = (Matrix.mk (2 : ℚ) 1 1 1 3 4).ApplyInverse 5 7 :=
  ⟨by norm_num,
    (matrix_inverse_round_trip (Matrix.mk (2 : ℚ) 1 1 1 3 4) 5 7 (by norm_num)).1,
    (matrix_inverse_round_trip (Matrix.mk (2 : ℚ) 1 1 1 3 4) 5 7 (by norm_num)).2.2⟩

/-! ## `Resume` run alone -/

theorem upd_upd {κ α : Type} [DecidableEq κ] (f : κ → α) (k : κ) (v w : α) :
    upd (upd f k v) k w = upd f k w := by
  funext i; simp only [upd]; split_ifs <;> rfl

theorem upd_wake_upd (p : Nat → PC) (r : Nat) (x v : PC) :
    upd (fun i => wake (upd p r x i)) r v = upd (fun i => wake (p i)) r v := by
  funext i; simp only [upd]; split_ifs <;> rfl

theorem upd_self (p : Nat → PC) (r : Nat) : upd p r (p r) = p := by
  funext i; simp only [upd]; split_ifs with h
  · rw [h]
  · rfl

theorem SameManager.refl (s : State) (r : Nat) : SameManager s s r :=
  ⟨rfl, rfl, rfl, rfl, fun _ _ => rfl⟩

theorem SameManager.trans {s s1 s2 : State} {r : Nat} (h1 : SameManager s s1 r)
    (h2 : SameManager s1 s2 r) : SameManager s s2 r :=
  ⟨h2.1.trans h1.1, h2.2.1.trans h1.2.1, h2.2.2.1.trans h1.2.2.1,
    h2.2.2.2.1.trans h1.2.2.2.1, fun i hi => (h2.2.2.2.2 i hi).trans (h1.2.2.2.2 i hi)⟩

/-- One statement of a pass of `Resume(th)` that does not find the flag set: the
goroutine stays inside the loop and changes nothing but the mutex. -/
theorem Spinning.step {s : State} {r : Nat} {th : Thread} {b : Bool}
    (h : Spinning s r th b) :
    ∃ s1, Spx.step s (Action.exec r) = some s1 ∧ Spinning s1 r th b ∧ SameManager s s1 r := by
  obtain ⟨hf, hp⟩ := h
  have hflag : s.flag th = false := by
    cases hh : s.flag th with
    | false => rfl
    | true => exact absurd (flag_eq_true.mp hh) hf
  have same : ∀ (m : Bool) (k : PC), SameManager s ({ s with mutex := m }.goto r k) r :=
    fun m k => ⟨rfl, rfl, rfl, rfl, fun i hi => upd_other _ _ hi⟩
  rcases hp with ⟨hpc, hm⟩ | ⟨hpc, hm⟩ | ⟨hpc, hm⟩ | ⟨hpc, hm⟩
  · refine ⟨{ s with mutex := true }.goto r (PC.resume RPos.test th b), ?_,
      ⟨hf, Or.inr (Or.inl ⟨upd_same _ _ _, rfl⟩)⟩, same _ _⟩
    simp [Spx.step, hpc, stmt, Resume, Eff.run, hm]
  · refine ⟨{ s with mutex := s.mutex }.goto r (PC.resume (RPos.unlock false) th b), ?_,
      ⟨hf, Or.inr (Or.inr (Or.inl ⟨upd_same _ _ _, hm⟩))⟩, same _ _⟩
    simp [Spx.step, hpc, stmt, Resume, Eff.run, hflag]
  · refine ⟨{ s with mutex := false }.goto r (PC.resume (RPos.check false) th b), ?_,
      ⟨hf, Or.inr (Or.inr (Or.inr ⟨upd_same _ _ _, rfl⟩))⟩, same _ _⟩
    simp [Spx.step, hpc, stmt, Resume, Eff.run, hm]
  · refine ⟨{ s with mutex := s.mutex }.goto r (PC.resume RPos.lock th b), ?_,
      ⟨hf, Or.inl ⟨upd_same _ _ _, hm⟩⟩, same _ _⟩
    simp [Spx.step, hpc, stmt, Resume, Eff.run]

/-- However many statements `Resume(th)` executes while the flag of `th` is not set, it
is still inside its loop and the manager is unchanged. -/
theorem Spinning.forever {s : State} {r : Nat} {th : Thread} {b : Bool}
    (h : Spinning s r th b) (n : Nat) :
    ∃ s1, run s (List.replicate n (Action.exec r)) = some s1 ∧ Spinning s1 r th b
      ∧ SameManager s s1 r := by
  induction n generalizing s with
  | zero => exact ⟨s, rfl, h, SameManager.refl s r⟩
  | succ n ih =>
    obtain ⟨s1, hs, hsp, hsm⟩ := h.step
    obtain ⟨s2, hr, hsp2, hsm2⟩ := ih hsp
    exact ⟨s2, by simp [List.replicate, run, hs, hr], hsp2, hsm.trans hsm2⟩

theorem Spinning.pc {s : State} {r : Nat} {th : Thread} {b : Bool}
    (h : Spinning s r th b) : ∃ k, s.pc r = PC.resume k th b := by
  rcases h.2 with ⟨hpc, _⟩ | ⟨hpc, _⟩ | ⟨hpc, _⟩ | ⟨hpc, _⟩ <;> exact ⟨_, hpc⟩

/-- C4, as stated, fails: a thread yields, is resumed and runs to completion; a second
`Resume` of it (goroutine 2) finds no flag, and however many statements it executes it
does not return. -/
theorem resume_not_parked_counterexample :
    Reachable (reach runResumeTwice)
    ∧ (reach runResumeTwice).pc 0 = PC.done
    ∧ (reach runResumeTwice).suspended (some 0) = Option.none
    ∧ (reach runResumeTwice).pc 2 = PC.resume RPos.lock (some 0) false
    ∧ ¬ ∃ n s1, run (reach runResumeTwice) (List.replicate n (Action.exec 2)) = some s1
        ∧ s1.pc 2 = PC.done := by
  refine ⟨⟨runResumeTwice, rfl⟩, rfl, rfl, rfl, ?_⟩
  rintro ⟨n, s1, hr, hd⟩
  have hsp : Spinning (reach runResumeTwice) 2 (some 0) false :=
    ⟨by decide, Or.inl ⟨rfl, rfl⟩⟩
  obtain ⟨s2, hr2, hsp2, _⟩ := hsp.forever n
  rw [hr] at hr2
  cases hr2
  obtain ⟨k, hk⟩ := hsp2.pc
  rw [hd] at hk
  cases hk

/-- C4, amended.  In every state in which `th` is not recorded as suspended=true and
the mutex is free, a goroutine `r` that calls `Resume(th)` does not return: one pass
of its loop (lines 120-130, four statements) leaves the whole state as it was, back
at line 120; and however many statements `r` executes alone, it is still inside
`Resume(th)`, and the map, `current`, the run lock and all other goroutines are as
before. -/
theorem resume_not_parked (s : State) (r : Nat) (th : Thread) (b : Bool)
    (hpc : s.pc r = PC.resume RPos.lock th b) (hm : s.mutex = false)
    (hf : s.suspended th ≠ some true) :
    run s (List.replicate 4 (Action.exec r)) = some s
    ∧ ∀ n, ∃ s1, run s (List.replicate n (Action.exec r)) = some s1
        ∧ (∃ k, s1.pc r = PC.resume k th b)
        ∧ s1.suspended = s.suspended ∧ s1.current = s.current ∧ s1.sema = s.sema
        ∧ ∀ i, i ≠ r → s1.pc i = s.pc i := by
  have hflag : s.flag th = false := by
    cases hh : s.flag th with
    | false => rfl
    | true => exact absurd (flag_eq_true.mp hh) hf
  have hflag1 : (s.suspended th).getD false = false := hflag
  constructor
  · simp only [List.replicate, run, step, stmt, Resume, Eff.run, State.goto, hpc, hm, hflag1,
      State.flag, upd_same, Option.some_bind, if_true, Bool.false_eq_true, if_false, upd_upd]
    rw [← hpc, upd_self, ← hm]
  · intro n
    obtain ⟨s1, hr, hsp, hsm⟩ := Spinning.forever (s := s) (r := r) (b := b) ⟨hf, Or.inl ⟨hpc, hm⟩⟩ n
    exact ⟨s1, hr, hsp.pc, hsm.1, hsm.2.1, hsm.2.2.1, hsm.2.2.2.2⟩

theorem resume_not_parked_witness :
    (reach [Action.resume (some 0)]).pc 0 = PC.resume RPos.lock (some 0) false
    ∧ (reach [Action.resume (some 0)]).suspended (some 0) ≠ some true
    ∧ run (reach [Action.resume (some 0)]) (List.replicate 4 (Action.exec 0))
        = some (reach [Action.resume (some 0)]) :=
  ⟨rfl, by decide,
    (resume_not_parked (reach [Action.resume (some 0)]) 0 (some 0) false rfl rfl
      (by decide)).1⟩

/-! ## How one step changes program counters and the map -/

/-- Every step, with its action. -/
theorem step_cases_act {s s1 : State} {a : Action} (h : step s a = some s1) :
    (∃ k1, s1 = s.spawn k1 ∧ (∀ g, a ≠ Action.exec g)
        ∧ (k1 = PC.start ∨ ∃ th, k1 = PC.resume RPos.lock th false))
    ∨ (∃ g c, a = Action.call g c ∧ s.pc g = PC.body ∧ s1 = s.goto g c.entry)
    ∨ ∃ g e k, a = Action.exec g ∧ stmt s g (s.pc g) = some (e, k) ∧ e.run s g k = some s1 := by
  cases a with
  | create =>
    left
    exact ⟨PC.start, by simpa [Spx.step, CreateAndStart] using h.symm, by simp, Or.inl rfl⟩
  | resume th =>
    left
    exact ⟨_, by simpa [Spx.step] using h.symm, by simp, Or.inr ⟨th, rfl⟩⟩
  | call g c =>
    right; left
    simp only [Spx.step] at h
    split at h
    · next hb => exact ⟨g, c, rfl, hb, by simpa using h.symm⟩
    · simp at h
  | exec g =>
    right; right
    simp only [Spx.step] at h
    split at h
    · next e k hst => exact ⟨g, e, k, rfl, hst, h⟩
    · simp at h

/-- The program counter of the goroutine that executes a statement. -/
theorem Eff.run_pc_self {s s1 : State} {g : Nat} {e : Eff} {k : PC}
    (h : e.run s g k = some s1) : s1.pc g = k ∨ s1.pc g = PC.fatal := by
  cases e <;> simp only [Eff.run] at h <;> (try split_ifs at h) <;>
    (try simp only [Option.some.injEq, reduceCtorEq] at h) <;> (try subst h) <;>
    simp [State.goto]

/-- The program counter of a goroutine that does not execute the statement. -/
theorem Eff.run_pc_other {s s1 : State} {g i : Nat} {e : Eff} {k : PC}
    (h : e.run s g k = some s1) (hi : i ≠ g) :
    s1.pc i = s.pc i ∨ (e = Eff.broadcast ∧ s1.pc i = wake (s.pc i))
      ∨ (∃ k1, e = Eff.go k1 ∧ i = s.ngo ∧ s1.pc i = k1) := by
  cases e with
  | broadcast =>
    simp only [Eff.run, Option.some.injEq] at h; subst h
    exact Or.inr (Or.inl ⟨rfl, upd_other _ _ hi⟩)
  | go k1 =>
    simp only [Eff.run, Option.some.injEq] at h; subst h
    by_cases hn : i = s.ngo
    · refine Or.inr (Or.inr ⟨k1, rfl, hn, ?_⟩)
      simp only [State.goto, State.spawn, upd_other _ _ hi]
      rw [hn, upd_same]
    · left
      simp only [State.goto, State.spawn, upd_other _ _ hi, upd_other _ _ hn]
  | _ =>
    left
    simp only [Eff.run] at h
    (try split_ifs at h) <;>
      (try simp only [Option.some.injEq, reduceCtorEq] at h) <;> (try subst h) <;>
      exact upd_other _ _ hi

/-- The map after a statement. -/
theorem Eff.run_suspended {s s1 : State} {g : Nat} {e : Eff} {k : PC}
    (h : e.run s g k = some s1) :
    (s1.suspended = s.suspended ∧ ∀ t v, e ≠ Eff.setSuspended t v)
      ∨ ∃ t v, e = Eff.setSuspended t v ∧ s1.suspended = upd s.suspended t v := by
  cases e with
  | setSuspended t v =>
    simp only [Eff.run, Option.some.injEq] at h; subst h
    exact Or.inr ⟨t, v, rfl, rfl⟩
  | _ =>
    left
    simp only [Eff.run] at h
    (try split_ifs at h) <;>
      (try simp only [Option.some.injEq, reduceCtorEq] at h) <;> (try subst h) <;>
      exact ⟨rfl, by intro t v hh; cases hh⟩

/-- The statements that write the map. -/
theorem stmt_writes {s : State} {g : Nat} {t : Thread} {v : Option Bool} {k : PC}
    (h : stmt s g (s.pc g) = some (Eff.setSuspended t v, k)) :
    (∃ hh, s.pc g = PC.yield YPos.set t hh ∧ v = some true)
    ∨ (∃ b, s.pc g = PC.resume RPos.store t b ∧ v = some false)
    ∨ (s.pc g = PC.retDelete ∧ t = some g ∧ v = Option.none) := by
  generalize hk0 : s.pc g = k0 at h
  cases k0 with
  | yield ky0 me0 h0 =>
    cases ky0 <;> simp only [stmt, Yield] at h <;> (try split_ifs at h) <;>
      simp only [Option.some.injEq, Prod.mk.injEq, reduceCtorEq, false_and,
        Eff.setSuspended.injEq] at h
    obtain ⟨⟨rfl, rfl⟩, _⟩ := h
    exact Or.inl ⟨h0, rfl, rfl⟩
  | resume kr th b =>
    cases kr <;> simp only [stmt, Resume] at h <;> (try split_ifs at h) <;>
      simp only [Option.some.injEq, Prod.mk.injEq, reduceCtorEq, false_and,
        Eff.setSuspended.injEq] at h
    obtain ⟨⟨rfl, rfl⟩, _⟩ := h
    exact Or.inr (Or.inl ⟨b, rfl, rfl⟩)
  | sched me0 =>
    simp only [stmt, Sched, Option.some.injEq, Prod.mk.injEq, reduceCtorEq, false_and] at h
  | retDelete =>
    simp only [stmt, goroutine, Option.some.injEq, Prod.mk.injEq, Eff.setSuspended.injEq] at h
    obtain ⟨⟨rfl, rfl⟩, _⟩ := h
    exact Or.inr (Or.inr ⟨rfl, rfl, rfl⟩)
  | _ =>
    simp only [stmt, goroutine, Option.some.injEq, Prod.mk.injEq, reduceCtorEq, false_and] at h

/-- The statements that lead to a position of `Yield` after line 105: line 105 itself,
or a statement of the same call of `Yield` after line 105, which does not write the map
and does not leave the wait loop while the flag is set. -/
theorem stmt_afterSet {s : State} {g : Nat} {e : Eff} {ky : YPos} {me : Thread}
    {h : Option Nat} (hst : stmt s g (s.pc g) = some (e, PC.yield ky me h))
    (ha : ky.afterSet = true) :
    (∃ ky0, s.pc g = PC.yield ky0 me h ∧ ky0.afterSet = true ∧ (∀ t v, e ≠ Eff.setSuspended t v)
        ∧ (ky0.inLoop = true → s.flag me = true → ky.inLoop = true))
    ∨ (s.pc g = PC.yield YPos.set me h ∧ ky = YPos.test ∧ e = Eff.setSuspended me (some true)) := by
  generalize hk0 : s.pc g = k0 at hst
  cases k0 with
  | yield ky0 me0 h0 =>
    cases ky0 <;> simp only [stmt, Yield] at hst <;> (try split_ifs at hst with hc) <;>
      simp only [Option.some.injEq, Prod.mk.injEq, reduceCtorEq, false_and, and_false,
        PC.yield.injEq] at hst <;>
      obtain ⟨rfl, rfl, rfl, rfl⟩ := hst <;>
      simp_all [YPos.afterSet, YPos.inLoop]
  | resume kr th b =>
    cases kr <;> simp only [stmt, Resume] at hst <;> (try split_ifs at hst) <;>
      simp only [Option.some.injEq, Prod.mk.injEq, reduceCtorEq, false_and, and_false] at hst
  | sched me0 =>
    simp only [stmt, Sched, Option.some.injEq, Prod.mk.injEq, PC.yield.injEq] at hst
    obtain ⟨_, rfl, _⟩ := hst
    simp [YPos.afterSet] at ha
  | _ =>
    simp only [stmt, goroutine, Option.some.injEq, Prod.mk.injEq, reduceCtorEq, false_and,
      and_false] at hst

/-! ## No wake-up without `Resume` -/

theorem stmt_go {s : State} {g : Nat} {k1 k : PC} (h : stmt s g (s.pc g) = some (Eff.go k1, k)) :
    ∃ me, k1 = PC.resume RPos.lock me false := by
  generalize hk0 : s.pc g = k0 at h
  cases k0 with
  | yield ky0 me0 h0 =>
    cases ky0 <;> simp only [stmt, Yield] at h <;> (try split_ifs at h) <;>
      simp only [Option.some.injEq, Prod.mk.injEq, reduceCtorEq, false_and] at h
  | resume kr th b =>
    cases kr <;> simp only [stmt, Resume] at h <;> (try split_ifs at h) <;>
      simp only [Option.some.injEq, Prod.mk.injEq, reduceCtorEq, false_and] at h
  | sched me0 =>
    simp only [stmt, Sched, Option.some.injEq, Prod.mk.injEq, Eff.go.injEq] at h
    exact ⟨me0, h.1.symm⟩
  | _ =>
    simp only [stmt, goroutine, Option.some.injEq, Prod.mk.injEq, reduceCtorEq, false_and] at h

/-- While a goroutine is parked in the wait loop of `Yield(me)` with its flag set, the
only step that makes `suspended[me]` other than true is line 122 of a `Resume(me)`. -/
theorem only_resume_clears {s s1 : State} {a : Action} (h1 : Inv1 s)
    (hs : step s a = some s1) {g : Nat} {ky : YPos} {me : Thread} {h : Option Nat}
    (hpc : s.pc g = PC.yield ky me h) (hl : ky.inLoop = true)
    (hf : s.suspended me = some true) (hf1 : s1.suspended me ≠ some true) :
    ∃ r b, a = Action.exec r ∧ s.pc r = PC.resume RPos.store me b
      ∧ s1.suspended me = some false ∧ s1.pc g = s.pc g := by
  have hme : me = some g := h1.self g ky me h hpc (by intro e; subst e; simp [YPos.inLoop] at hl)
  rcases step_cases_act hs with ⟨k1, rfl, _, _⟩ | ⟨g1, c, _, _, rfl⟩ | ⟨r, e, k, rfl, hst, hr⟩
  · exact absurd hf hf1
  · exact absurd hf hf1
  · rcases Eff.run_suspended hr with ⟨hsame, _⟩ | ⟨t, v, rfl, hw⟩
    · rw [hsame] at hf1; exact absurd hf hf1
    · by_cases ht : me = t
      · subst ht
        rw [hw, upd_same] at hf1
        rcases stmt_writes hst with ⟨hh, _, rfl⟩ | ⟨b, hpr, rfl⟩ | ⟨hpr, hr1, rfl⟩
        · exact absurd rfl hf1
        · have hrg : g ≠ r := by
            intro e; subst e; rw [hpc] at hpr; cases hpr
          refine ⟨r, b, rfl, hpr, by rw [hw, upd_same], ?_⟩
          rcases Eff.run_pc_other hr hrg with h3 | ⟨h3, _⟩ | ⟨k1, h3, _⟩
          · exact h3
          · cases h3
          · cases h3
        · rw [hme] at hr1
          cases hr1
          rw [hpc] at hpr; cases hpr
      · rw [hw, upd_other _ _ ht] at hf1; exact absurd hf hf1

/-- How a goroutine gets to a position of `Yield(me)` after line 105. -/
theorem inYield_from {s s1 : State} {a : Action}
    (hs : step s a = some s1) {g : Nat} {ky : YPos} {me : Thread} {h : Option Nat}
    (hpc1 : s1.pc g = PC.yield ky me h) (ha : ky.afterSet = true) :
    (∃ ky0, s.pc g = PC.yield ky0 me h ∧ ky0.afterSet = true
        ∧ (ky0.inLoop = true → s.suspended me = some true → s1.suspended me = some true →
            ky.inLoop = true))
    ∨ (s.pc g = PC.yield YPos.set me h ∧ ky = YPos.test ∧ s1.suspended me = some true) := by
  have stay : s1.pc g = s.pc g → ∃ ky0, s.pc g = PC.yield ky0 me h ∧ ky0.afterSet = true
        ∧ (ky0.inLoop = true → s.suspended me = some true → s1.suspended me = some true →
            ky.inLoop = true) := by
    intro e
    exact ⟨ky, by rw [← e]; exact hpc1, ha, fun hl _ _ => hl⟩
  rcases step_cases_act hs with ⟨k1, rfl, _, hk1⟩ | ⟨g1, c, _, _, rfl⟩ | ⟨r, e, k, rfl, hst, hr⟩
  · by_cases hn : g = s.ngo
    · subst hn
      simp only [State.spawn, upd_same] at hpc1
      rcases hk1 with rfl | ⟨th, rfl⟩ <;> cases hpc1
    · exact Or.inl (stay (upd_other _ _ hn))
  · by_cases hn : g = g1
    · subst hn
      simp only [State.goto, upd_same] at hpc1
      cases c <;> simp only [Call.entry, PC.yield.injEq, reduceCtorEq] at hpc1
      obtain ⟨rfl, _, _⟩ := hpc1
      simp [YPos.afterSet] at ha
    · exact Or.inl (stay (upd_other _ _ hn))
  · by_cases hn : g = r
    · subst hn
      rcases Eff.run_pc_self hr with hk | hk
      · rw [hk] at hpc1
        subst hpc1
        rcases stmt_afterSet hst ha with ⟨ky0, hp0, ha0, _, hl0⟩ | ⟨hp0, hky, he⟩
        · exact Or.inl ⟨ky0, hp0, ha0, fun hl hf _ => hl0 hl (flag_eq_true.mpr hf)⟩
        · refine Or.inr ⟨hp0, hky, ?_⟩
          rcases Eff.run_suspended hr with ⟨_, hne⟩ | ⟨t, v, he1, hw⟩
          · exact absurd he (hne _ _)
          · rw [he] at he1
            cases he1
            rw [hw, upd_same]
      · rw [hk] at hpc1; cases hpc1
    · rcases Eff.run_pc_other hr hn with h3 | ⟨_, h3⟩ | ⟨k1, he, _, h3⟩
      · exact Or.inl (stay h3)
      · rw [h3] at hpc1
        rcases wake_eq_yield hpc1 with h4 | ⟨rfl, h4⟩
        · exact Or.inl ⟨ky, h4, ha, fun hl _ _ => hl⟩
        · exact Or.inl ⟨YPos.parked, h4, rfl, fun _ _ _ => rfl⟩
      · subst he
        obtain ⟨me1, rfl⟩ := stmt_go hst
        rw [h3] at hpc1; cases hpc1

theorem Along.head {P : State → Prop} {s : State} {acts : List Action} (h : Along P s acts) :
    P s := by
  cases acts with
  | nil => exact h
  | cons a as => exact h.1

theorem Along.snoc {P : State → Prop} {s : State} {acts : List Action} {a : Action}
    (h : Along P s acts)
    (hl : ∀ s1 s2, run s acts = some s1 → step s1 a = some s2 → P s2) :
    Along P s (acts ++ [a]) := by
  induction acts generalizing s with
  | nil =>
    refine ⟨h, fun s1 hs => ?_⟩
    exact hl s s1 rfl hs
  | cons b bs ih =>
    refine ⟨h.1, fun s1 hs => ih (h.2 s1 hs) ?_⟩
    intro s2 s3 hr hs3
    exact hl s2 s3 (by simp [run, hs, hr]) hs3

theorem run_cons_append {s s0 s1 s2 : State} {pre post : List Action} {a : Action}
    (h : run s (pre ++ a :: post) = some s2) (h0 : run s pre = some s0)
    (h1 : step s0 a = some s1) : run s1 post = some s2 := by
  rw [run_append, h0] at h
  simpa [run, h1] using h

/-- Along every run, a goroutine inside `Yield(me)` after line 105 is in the wait loop
with its flag set, or a `Resume(me)` has cleared the flag since. -/
theorem flag_or_cleared (acts : List Action) :
    ∀ s, run New acts = some s → ∀ g ky me h, s.pc g = PC.yield ky me h → ky.afterSet = true →
      (ky.inLoop = true ∧ s.suspended me = some true) ∨ ClearedSince acts g me h := by
  induction acts using List.reverseRecOn with
  | nil =>
    intro s hr g ky me h hpc _
    simp only [run, Option.some.injEq] at hr
    subst hr
    cases hpc
  | append_singleton acts a ih =>
    intro s hr g ky me h hpc ha
    obtain ⟨s0, hr0, hs⟩ := run_snoc_inv hr
    have hreach : Reachable s0 := ⟨acts, hr0⟩
    rcases inYield_from hs hpc ha with ⟨ky0, hp0, ha0, hstay⟩ | ⟨_, rfl, hf⟩
    · rcases ih s0 hr0 g ky0 me h hp0 ha0 with ⟨hl0, hf0⟩ | hc
      · by_cases hf1 : s.suspended me = some true
        · exact Or.inl ⟨hstay hl0 hf0 hf1, hf1⟩
        · obtain ⟨r, b, rfl, hpr, hfalse, _⟩ :=
            only_resume_clears hreach.inv1 hs hp0 hl0 hf0 hf1
          exact Or.inr ⟨r, acts, b, [], s0, s, rfl, hr0, hpr, hf0, ⟨ky0, hp0, hl0⟩, hs, hfalse,
            ⟨ky, hpc, ha⟩⟩
      · obtain ⟨r, pre, b, post, s1, s2, he, hr1, hpr, hf1, hl1, hs1, hfalse, hal⟩ := hc
        refine Or.inr ⟨r, pre, b, post ++ [a], s1, s2, by rw [he]; simp, hr1, hpr, hf1, hl1,
          hs1, hfalse, hal.snoc ?_⟩
        intro s3 s4 hr3 hs4
        rw [he] at hr0
        have := run_cons_append hr0 hr1 hs1
        rw [hr3] at this
        cases this
        rw [hs] at hs4
        cases hs4
        exact ⟨ky, hpc, ha⟩
    · exact Or.inl ⟨rfl, hf⟩

/-- C5 (no spurious wake-up).  In every run from `New`, when a goroutine `g` has left
the wait loop of its call `Yield(me)` (it is at line 109, 111 or 112), some step of a
`Resume(me)` has changed `suspended[me]` from true to false while `g` was parked in the
wait loop of this call, that is after this `Yield` executed `suspended[me] = true`.
And in every reachable state in which a goroutine is parked in the wait loop of
`Yield(me)` with `suspended[me]` true, the only step that makes `suspended[me]` other
than true is line 122 of a `Resume(me)`: no `Yield`, no `Resume` of another thread and
no return of a body does. -/
theorem no_spurious_wakeup (acts : List Action) (s : State) (g : Nat) (ky : YPos)
    (me : Thread) (h : Option Nat) (hrun : run New acts = some s)
    (hpc : s.pc g = PC.yield ky me h) (hk : ky.pastLoop = true) :
    ClearedSince acts g me h
    ∧ ∀ (s0 s1 : State) (a : Action) (g0 : Nat) (ky0 : YPos) (me0 : Thread) (h0 : Option Nat),
        Reachable s0 → step s0 a = some s1 → s0.pc g0 = PC.yield ky0 me0 h0 →
        ky0.inLoop = true → s0.suspended me0 = some true → s1.suspended me0 ≠ some true →
        ∃ r b, a = Action.exec r ∧ s0.pc r = PC.resume RPos.store me0 b
          ∧ s1.suspended me0 = some false := by
  constructor
  · have ha : ky.afterSet = true := by cases ky <;> simp_all [YPos.pastLoop, YPos.afterSet]
    rcases flag_or_cleared acts s hrun g ky me h hpc ha with ⟨hl, _⟩ | hc
    · cases ky <;> simp_all [YPos.pastLoop, YPos.inLoop]
    · exact hc
  · intro s0 s1 a g0 ky0 me0 h0 hr hs hp hl hf hf1
    obtain ⟨r, b, ha, hpr, hfalse, _⟩ := only_resume_clears hr.inv1 hs hp hl hf hf1
    exact ⟨r, b, ha, hpr, hfalse⟩

theorem no_spurious_wakeup_witness :
    run New runYieldWoken = some (reach runYieldWoken)
    ∧ (reach runYieldWoken).pc 0 = PC.yield YPos.unlock (some 0) Option.none
    ∧ ClearedSince runYieldWoken 0 (some 0) Option.none :=
  ⟨rfl, rfl,
    (no_spurious_wakeup runYieldWoken (reach runYieldWoken) 0 YPos.unlock (some 0) Option.none
      rfl rfl rfl).1⟩

/-! ## Third layer: `Sched` and its helper -/

/-- Under the invariants no `Unlock` hits a lock that is not locked: the goroutine that
executes a statement continues where the statement says. -/
theorem exec_pc_self {s s1 : State} {g : Nat} {e : Eff} {k : PC} (h1 : Inv1 s) (h2 : Inv2 s)
    (hst : stmt s g (s.pc g) = some (e, k)) (hr : e.run s g k = some s1) : s1.pc g = k := by
  have ho1 := Move.ok1 (Or.inl hst) h1
  have ho2 := Move.ok2 (Or.inl hst) h1 h2
  cases e with
  | unlockMutex =>
    simp only [Eff.run] at hr
    split_ifs at hr with hl
    · simp only [Option.some.injEq] at hr; subst hr; exact upd_same _ _ _
    · exact absurd (h2.mutex.locked_of_holds ho2.1) hl
  | unlockSema =>
    simp only [Eff.run] at hr
    split_ifs at hr with hl
    · simp only [Option.some.injEq] at hr; subst hr; exact upd_same _ _ _
    · exact absurd (h1.sema.locked_of_holds ho1.1) hl
  | _ =>
    simp only [Eff.run] at hr
    try split_ifs at hr
    all_goals simp only [Option.some.injEq] at hr
    all_goals subst hr
    all_goals exact upd_same _ _ _

theorem Inv3.new3 (m : Nat) : Inv3 m New := by
  constructor
  · intro r k b h; cases h
  · intro ky r h; cases h
  · intro g h; cases h

theorem phase_wake (m : Nat) (k : PC) : phase m (wake k) = phase m k := by
  unfold wake; split <;> simp [phase]

theorem phase_ne_other_ne_none {m : Nat} {k : PC} (h : phase m k ≠ Phase.other) :
    k ≠ PC.none := by
  intro e; subst e; exact h rfl

theorem Good.ne_other {ky : YPos} {ph : Phase} {f : Option Bool} (h : Good ky ph f) :
    ph ≠ Phase.other := by
  intro e; subst e
  cases ky <;> simp [Good] at h

theorem stmt_ne_sched {s : State} {g : Nat} {e : Eff} {k : PC}
    (h : stmt s g (s.pc g) = some (e, k)) (x : Thread) : k ≠ PC.sched x := by
  intro hk; subst hk
  generalize hk0 : s.pc g = k0 at h
  cases k0 with
  | yield ky0 me0 h0 =>
    cases ky0 <;> simp only [stmt, Yield] at h <;> (try split_ifs at h) <;>
      simp only [Option.some.injEq, Prod.mk.injEq, reduceCtorEq, and_false] at h
  | resume kr th b =>
    cases kr <;> simp only [stmt, Resume] at h <;> (try split_ifs at h) <;>
      simp only [Option.some.injEq, Prod.mk.injEq, reduceCtorEq, and_false] at h
  | sched me0 =>
    simp only [stmt, Sched, Option.some.injEq, Prod.mk.injEq, reduceCtorEq, and_false] at h
  | _ =>
    simp only [stmt, goroutine, Option.some.injEq, Prod.mk.injEq, reduceCtorEq, and_false] at h

/-- A statement that continues inside `Resume(th)` is a statement of this call of
`Resume(th)`, and not its return. -/
theorem stmt_to_resume {s : State} {g : Nat} {e : Eff} {k1 : RPos} {th : Thread} {b : Bool}
    (h : stmt s g (s.pc g) = some (e, PC.resume k1 th b)) :
    ∃ k0, s.pc g = PC.resume k0 th b ∧ k0 ≠ RPos.check true := by
  generalize hk0 : s.pc g = k0 at h
  cases k0 with
  | yield ky0 me0 h0 =>
    cases ky0 <;> simp only [stmt, Yield] at h <;> (try split_ifs at h) <;>
      simp only [Option.some.injEq, Prod.mk.injEq, reduceCtorEq, and_false] at h
  | resume kr th0 b0 =>
    cases kr <;> simp only [stmt, Resume] at h <;> (try split_ifs at h) <;>
      simp only [Option.some.injEq, Prod.mk.injEq, reduceCtorEq, and_false,
        PC.resume.injEq] at h <;>
      obtain ⟨_, _, rfl, rfl⟩ := h <;>
      exact ⟨_, rfl, by simp_all⟩
  | sched me0 =>
    simp only [stmt, Sched, Option.some.injEq, Prod.mk.injEq, reduceCtorEq, and_false] at h
  | _ =>
    simp only [stmt, goroutine, Option.some.injEq, Prod.mk.injEq, reduceCtorEq, and_false] at h

/-- A statement that continues inside `Yield(me)` is a statement of this call of
`Yield(me)`, or the `go` of the `Sched(me)` that calls it. -/
theorem stmt_to_yield {s : State} {g : Nat} {e : Eff} {ky1 : YPos} {me : Thread}
    {h : Option Nat} (hst : stmt s g (s.pc g) = some (e, PC.yield ky1 me h)) :
    (∃ ky0, s.pc g = PC.yield ky0 me h)
    ∨ (s.pc g = PC.sched me ∧ ky1 = YPos.check ∧ h = some s.ngo
        ∧ e = Eff.go (PC.resume RPos.lock me false)) := by
  generalize hk0 : s.pc g = k0 at hst
  cases k0 with
  | yield ky0 me0 h0 =>
    cases ky0 <;> simp only [stmt, Yield] at hst <;> (try split_ifs at hst) <;>
      simp only [Option.some.injEq, Prod.mk.injEq, reduceCtorEq, and_false,
        PC.yield.injEq] at hst <;>
      obtain ⟨_, _, rfl, rfl⟩ := hst <;>
      exact Or.inl ⟨_, rfl⟩
  | resume kr th0 b0 =>
    cases kr <;> simp only [stmt, Resume] at hst <;> (try split_ifs at hst) <;>
      simp only [Option.some.injEq, Prod.mk.injEq, reduceCtorEq, and_false] at hst
  | sched me0 =>
    simp only [stmt, Sched, Option.some.injEq, Prod.mk.injEq, PC.yield.injEq] at hst
    obtain ⟨rfl, rfl, rfl, rfl⟩ := hst
    exact Or.inr ⟨rfl, rfl, rfl, rfl⟩
  | _ =>
    simp only [stmt, goroutine, Option.some.injEq, Prod.mk.injEq, reduceCtorEq, and_false] at hst

/-- A statement of `Yield(me)` continues inside this call, unless it is the return of
line 112 or the panic of line 99. -/
theorem stmt_from_yield {s : State} {g : Nat} {e : Eff} {k : PC} {ky0 : YPos} {me : Thread}
    {h : Option Nat} (hpc : s.pc g = PC.yield ky0 me h)
    (hst : stmt s g (s.pc g) = some (e, k)) :
    (∃ ky1, k = PC.yield ky1 me h) ∨ (ky0 = YPos.publish ∧ k = PC.body)
      ∨ (ky0 = YPos.check ∧ Current s ≠ me) := by
  rw [hpc] at hst
  cases ky0 <;> simp only [stmt, Yield] at hst <;> (try split_ifs at hst with hc) <;>
    simp only [Option.some.injEq, Prod.mk.injEq, reduceCtorEq] at hst <;>
    obtain ⟨_, rfl⟩ := hst <;>
    first
      | exact Or.inl ⟨_, rfl⟩
      | exact Or.inr (Or.inl ⟨rfl, rfl⟩)
      | exact Or.inr (Or.inr ⟨rfl, hc⟩)

theorem wake_eq_sched {k : PC} {x : Thread} (hw : wake k = PC.sched x) : k = PC.sched x := by
  revert hw; unfold wake; split
  · intro hw; cases hw
  · intro hw; exact hw

/-- A goroutine other than the one that executes a statement keeps its program counter
up to a wake-up, unless it is the goroutine that `Sched` launches. -/
theorem exec_pc_other {s s1 : State} {g i : Nat} {e : Eff} {k : PC}
    (hst : stmt s g (s.pc g) = some (e, k)) (hr : e.run s g k = some s1) (hi : i ≠ g) :
    (s1.pc i = s.pc i ∨ s1.pc i = wake (s.pc i))
    ∨ (∃ me, s.pc g = PC.sched me ∧ i = s.ngo ∧ s1.pc i = PC.resume RPos.lock me false
        ∧ k = PC.yield YPos.check me (some s.ngo)) := by
  rcases Eff.run_pc_other hr hi with h3 | ⟨_, h3⟩ | ⟨k1, he, hn, h3⟩
  · exact Or.inl (Or.inl h3)
  · exact Or.inl (Or.inr h3)
  · right
    subst he
    generalize hk0 : s.pc g = k0 at hst
    cases k0 with
    | yield ky0 me0 h0 =>
      cases ky0 <;> simp only [stmt, Yield] at hst <;> (try split_ifs at hst) <;>
        simp only [Option.some.injEq, Prod.mk.injEq, reduceCtorEq, false_and] at hst
    | resume kr th b =>
      cases kr <;> simp only [stmt, Resume] at hst <;> (try split_ifs at hst) <;>
        simp only [Option.some.injEq, Prod.mk.injEq, reduceCtorEq, false_and] at hst
    | sched me0 =>
      simp only [stmt, Sched, Option.some.injEq, Prod.mk.injEq, Eff.go.injEq] at hst
      obtain ⟨rfl, rfl⟩ := hst
      exact ⟨me0, rfl, hn, h3, rfl⟩
    | _ =>
      simp only [stmt, goroutine, Option.some.injEq, Prod.mk.injEq, reduceCtorEq,
        false_and] at hst

theorem wake_yield_of {k : PC} {ky : YPos} {me : Thread} {h : Option Nat}
    (hk : k = PC.yield ky me h) : ∃ ky1, wake k = PC.yield ky1 me h := by
  subst hk
  cases ky <;> exact ⟨_, rfl⟩

theorem phase_resume_returned {m : Nat} {k : RPos} {th : Thread} {b : Bool}
    (h : phase m (PC.resume k th b) = Phase.returned) : k = RPos.check true := by
  simp only [phase] at h
  split_ifs at h
  cases k with
  | unlock d => cases d <;> simp [RPos.phase] at h
  | check d =>
    cases d with
    | true => rfl
    | false => simp [RPos.phase] at h
  | _ => simp [RPos.phase] at h

theorem Inv3.sched_exec {m : Nat} {s s1 : State} {g : Nat} {e : Eff} {k : PC}
    (h1 : Inv1 s) (h2 : Inv2 s) (h3 : Inv3 m s)
    (hst : stmt s g (s.pc g) = some (e, k)) (hr : e.run s g k = some s1) :
    ∀ i, s1.pc i = PC.sched (some m) → i = m := by
  intro i hi
  by_cases hig : i = g
  · subst hig
    rw [exec_pc_self h1 h2 hst hr] at hi
    exact absurd hi (stmt_ne_sched hst _)
  · rcases exec_pc_other hst hr hig with (h4 | h4) | ⟨me, _, _, h4, _⟩
    · rw [h4] at hi; exact h3.sched i hi
    · rw [h4] at hi; exact h3.sched i (wake_eq_sched hi)
    · rw [h4] at hi; cases hi

theorem Inv3.live_exec {m : Nat} {s s1 : State} {g : Nat} {e : Eff} {k : PC}
    (h1 : Inv1 s) (h2 : Inv2 s) (h3 : Inv3 m s)
    (hst : stmt s g (s.pc g) = some (e, k)) (hr : e.run s g k = some s1) :
    ∀ r kr b, s1.pc r = PC.resume kr (some m) b → kr ≠ RPos.check true →
      ∃ ky, s1.pc m = PC.yield ky (some m) (some r) := by
  intro r kr b hpr hkr
  have hself := exec_pc_self h1 h2 hst hr
  -- the thread `m` stays inside the `Yield` of its `Sched` with helper `r0`
  have keep : ∀ r0 ky, r0 ≠ m → s.pc m = PC.yield ky (some m) (some r0) →
      phase m (s.pc r0) ≠ Phase.returned →
      ∃ ky1, s1.pc m = PC.yield ky1 (some m) (some r0) := by
    intro r0 ky hr0 hpm hph
    by_cases hmg : m = g
    · subst hmg
      rw [hself]
      rcases stmt_from_yield hpm hst with h5 | ⟨rfl, _⟩ | ⟨rfl, hc⟩
      · exact h5
      · have := h3.good _ _ hpm
        simp only [Good] at this
        exact absurd this.2 hph
      · exact absurd (h1.cur m (by rw [hpm]; rfl)) hc
    · rcases exec_pc_other hst hr hmg with (h4 | h4) | ⟨me, _, hn, _, _⟩
      · exact ⟨ky, by rw [h4]; exact hpm⟩
      · rw [h4]; exact wake_yield_of hpm
      · rw [hn, h1.wf _ le_rfl] at hpm; cases hpm
  by_cases hrg : r = g
  · subst hrg
    rw [hself] at hpr
    subst hpr
    obtain ⟨k0, hk0, hne⟩ := stmt_to_resume hst
    obtain ⟨ky, hpm⟩ := h3.live r k0 b hk0 hne
    have hrm : r ≠ m := by intro e1; subst e1; rw [hk0] at hpm; cases hpm
    refine keep r ky hrm hpm ?_
    rw [hk0]
    exact fun hph => hne (phase_resume_returned hph)
  · rcases exec_pc_other hst hr hrg with (h4 | h4) | ⟨me, hsch, hn, h4, hk⟩
    · rw [h4] at hpr
      obtain ⟨ky, hpm⟩ := h3.live r kr b hpr hkr
      have hrm : r ≠ m := by intro e1; subst e1; rw [hpr] at hpm; cases hpm
      refine keep r ky hrm hpm ?_
      rw [hpr]
      exact fun hph => hkr (phase_resume_returned hph)
    · rw [h4] at hpr
      have hpr := wake_eq_resume hpr
      obtain ⟨ky, hpm⟩ := h3.live r kr b hpr hkr
      have hrm : r ≠ m := by intro e1; subst e1; rw [hpr] at hpm; cases hpm
      refine keep r ky hrm hpm ?_
      rw [hpr]
      exact fun hph => hkr (phase_resume_returned hph)
    · rw [h4] at hpr
      cases hpr
      have hgm := h3.sched g hsch
      subst hgm
      rw [hself, hk, hn]
      exact ⟨_, rfl⟩

theorem phase_clearing_holds {m : Nat} {k : PC} (h : phase m k = Phase.clearing) :
    holdsMutex k = true := by
  cases k with
  | resume kr th b =>
    simp only [phase] at h
    split_ifs at h
    cases kr with
    | unlock d => rfl
    | check d => cases d <;> simp [RPos.phase] at h
    | _ => first | rfl | simp [RPos.phase] at h
  | _ => simp [phase] at h

theorem Good.wake {ky ky1 : YPos} {me : Thread} {h : Option Nat} {ph : Phase}
    {f : Option Bool} (hg : Good ky ph f) (hw : wake (PC.yield ky me h) = PC.yield ky1 me h) :
    Good ky1 ph f := by
  cases ky <;> simp only [Spx.wake, PC.yield.injEq, true_and, and_true] at hw <;> subst hw <;>
    exact hg

/-- The statements of `Yield(me)` that continue inside `Yield(me)`. -/
theorem stmt_yield_cases {s : State} {g : Nat} {e : Eff} {ky0 ky : YPos} {me : Thread}
    {h : Option Nat} (hpc : s.pc g = PC.yield ky0 me h)
    (hst : stmt s g (s.pc g) = some (e, PC.yield ky me h)) :
    (ky0 = YPos.check ∧ ky = YPos.release ∧ e = Eff.skip)
    ∨ (ky0 = YPos.release ∧ ky = YPos.lock ∧ e = Eff.unlockSema)
    ∨ (ky0 = YPos.lock ∧ ky = YPos.set ∧ e = Eff.lockMutex)
    ∨ (ky0 = YPos.set ∧ ky = YPos.test ∧ e = Eff.setSuspended me (some true))
    ∨ (ky0 = YPos.test ∧ ky = YPos.wait ∧ e = Eff.skip ∧ s.suspended me = some true)
    ∨ (ky0 = YPos.test ∧ ky = YPos.unlock ∧ e = Eff.skip ∧ s.suspended me ≠ some true)
    ∨ (ky0 = YPos.wait ∧ ky = YPos.parked ∧ e = Eff.unlockMutex)
    ∨ (ky0 = YPos.woken ∧ ky = YPos.test ∧ e = Eff.lockMutex)
    ∨ (ky0 = YPos.unlock ∧ ky = YPos.acquire ∧ e = Eff.unlockMutex)
    ∨ (ky0 = YPos.acquire ∧ ky = YPos.publish ∧ e = Eff.lockSema) := by
  rw [hpc] at hst
  cases ky0 <;> simp only [stmt, Yield] at hst <;> (try split_ifs at hst with hc) <;>
    simp only [Option.some.injEq, Prod.mk.injEq, reduceCtorEq, PC.yield.injEq, and_true,
      and_false] at hst
  all_goals obtain ⟨rfl, rfl⟩ := hst
  all_goals (try rw [flag_eq_true] at hc)
  all_goals simp_all

/-- The map entry of thread `m` after a statement of its `Yield`. -/
theorem run_flag {s s1 : State} {g : Nat} {e : Eff} {k : PC} (hr : e.run s g k = some s1)
    (t : Thread) :
    (s1.suspended t = s.suspended t ∧ ∀ v, e ≠ Eff.setSuspended t v)
    ∨ ∃ v, e = Eff.setSuspended t v ∧ s1.suspended t = v := by
  rcases Eff.run_suspended hr with ⟨h1, h2⟩ | ⟨t1, v, rfl, h1⟩
  · exact Or.inl ⟨by rw [h1], fun v => h2 t v⟩
  · by_cases ht : t = t1
    · subst ht; exact Or.inr ⟨v, rfl, by rw [h1, upd_same]⟩
    · refine Or.inl ⟨by rw [h1, upd_other _ _ ht], ?_⟩
      intro v1 hv; cases hv; exact ht rfl

/-- The part of `Inv3.good` for a statement of the thread `m` itself. -/
theorem Inv3.good_self {m : Nat} {s s1 : State} {e : Eff} {k : PC}
    (h1 : Inv1 s) (h2 : Inv2 s) (h3 : Inv3 m s)
    (hst : stmt s m (s.pc m) = some (e, k)) (hr : e.run s m k = some s1)
    {ky : YPos} {r : Nat} (hpm1 : s1.pc m = PC.yield ky (some m) (some r)) :
    Good ky (phase m (s1.pc r)) (s1.suspended (some m)) := by
  have hself := exec_pc_self h1 h2 hst hr
  rw [hself] at hpm1
  subst hpm1
  rcases stmt_to_yield hst with ⟨ky0, hpm⟩ | ⟨hpm, rfl, hrn, rfl⟩
  · have hg := h3.good _ _ hpm
    have hrm : r ≠ m := by
      intro e1; subst e1
      have := hg.ne_other
      rw [hpm] at this
      exact this rfl
    have hph : phase m (s1.pc r) = phase m (s.pc r) := by
      rcases exec_pc_other hst hr hrm with (h4 | h4) | ⟨me, hsch, _⟩
      · rw [h4]
      · rw [h4, phase_wake]
      · rw [hpm] at hsch; cases hsch
    rw [hph]
    have hmx : holdsMutex (s.pc m) = true → phase m (s.pc r) ≠ Phase.clearing := by
      intro hh hc
      exact hrm (h2.mutex.excl r m (phase_clearing_holds hc) hh)
    have hfl := run_flag hr (some m)
    rcases stmt_yield_cases hpm hst with ⟨rfl, rfl, rfl⟩ | ⟨rfl, rfl, rfl⟩ | ⟨rfl, rfl, rfl⟩
      | ⟨rfl, rfl, rfl⟩ | ⟨rfl, rfl, rfl, hf⟩ | ⟨rfl, rfl, rfl, hf⟩ | ⟨rfl, rfl, rfl⟩
      | ⟨rfl, rfl, rfl⟩ | ⟨rfl, rfl, rfl⟩ | ⟨rfl, rfl, rfl⟩
    · exact hg
    · exact hg
    · exact hg
    · rcases hfl with ⟨_, hne⟩ | ⟨v, hv, hf1⟩
      · exact absurd rfl (hne _)
      · cases hv
        exact Or.inl ⟨hf1, Or.inl hg⟩
    · rcases hfl with ⟨hf1, _⟩ | ⟨v, hv, _⟩
      · rw [hf1]; exact hg
      · cases hv
    · rcases hfl with ⟨hf1, _⟩ | ⟨v, hv, _⟩
      · rw [hf1]
        rcases hg with ⟨hf2, _⟩ | ⟨hf2, hp | hp⟩
        · exact absurd hf2 hf
        · exact absurd hp (hmx (by rw [hpm]; rfl))
        · exact ⟨hf2, hp⟩
      · cases hv
    · rcases hfl with ⟨hf1, _⟩ | ⟨v, hv, _⟩
      · rw [hf1]; exact hg
      · cases hv
    · rcases hfl with ⟨hf1, _⟩ | ⟨v, hv, _⟩
      · rw [hf1]; exact hg
      · cases hv
    · rcases hfl with ⟨hf1, _⟩ | ⟨v, hv, _⟩
      · rw [hf1]; exact hg
      · cases hv
    · rcases hfl with ⟨hf1, _⟩ | ⟨v, hv, _⟩
      · rw [hf1]; exact hg
      · cases hv
  · cases hrn
    simp only [Eff.run, Option.some.injEq] at hr
    subst hr
    have hn : s.ngo ≠ m := by
      intro e1; rw [← e1, h1.wf _ le_rfl] at hpm; cases hpm
    simp [Good, State.goto, State.spawn, upd_other _ _ hn, phase, RPos.phase]

/-- The statements of `Resume(th)`. -/
theorem stmt_resume_cases {s : State} {g : Nat} {e : Eff} {k : PC} {k0 : RPos} {th : Thread}
    {b : Bool} (hpc : s.pc g = PC.resume k0 th b) (hst : stmt s g (s.pc g) = some (e, k)) :
    (k0 = RPos.lock ∧ k = PC.resume RPos.test th b ∧ e = Eff.lockMutex)
    ∨ (k0 = RPos.test ∧ k = PC.resume RPos.store th b ∧ e = Eff.skip
        ∧ s.suspended th = some true)
    ∨ (k0 = RPos.test ∧ k = PC.resume (RPos.unlock false) th b ∧ e = Eff.skip
        ∧ s.suspended th ≠ some true)
    ∨ (k0 = RPos.store ∧ k = PC.resume RPos.broadcast th b
        ∧ e = Eff.setSuspended th (some false))
    ∨ (k0 = RPos.broadcast ∧ k = PC.resume (RPos.unlock true) th b ∧ e = Eff.broadcast)
    ∨ (∃ d, k0 = RPos.unlock d ∧ k = PC.resume (RPos.check d) th b ∧ e = Eff.unlockMutex)
    ∨ (k0 = RPos.check true ∧ k = (if b then PC.body else PC.done) ∧ e = Eff.skip)
    ∨ (k0 = RPos.check false ∧ k = PC.resume RPos.lock th b ∧ e = Eff.skip) := by
  rw [hpc] at hst
  cases k0 <;> simp only [stmt, Resume] at hst <;> (try split_ifs at hst with hc) <;>
    simp only [Option.some.injEq, Prod.mk.injEq] at hst
  all_goals obtain ⟨rfl, rfl⟩ := hst
  all_goals (try rw [flag_eq_true] at hc)
  all_goals simp_all

theorem phase_ne_other {m : Nat} {k : PC} (h : phase m k ≠ Phase.other) :
    k = PC.done ∨ ∃ k0, k = PC.resume k0 (some m) false := by
  cases k with
  | done => exact Or.inl rfl
  | resume k0 th b =>
    simp only [phase] at h
    split_ifs at h with hc
    · obtain ⟨rfl, rfl⟩ := hc
      exact Or.inr ⟨k0, rfl⟩
    · exact absurd rfl h
  | _ => exact absurd rfl h

/-- The part of `Inv3.good` for a statement of a goroutine other than the thread `m`. -/
theorem Inv3.good_other {m : Nat} {s s1 : State} {g : Nat} {e : Eff} {k : PC}
    (h1 : Inv1 s) (h2 : Inv2 s) (h3 : Inv3 m s)
    (hst : stmt s g (s.pc g) = some (e, k)) (hr : e.run s g k = some s1) (hgm : g ≠ m)
    {ky : YPos} {r : Nat} (hpm1 : s1.pc m = PC.yield ky (some m) (some r)) :
    Good ky (phase m (s1.pc r)) (s1.suspended (some m)) := by
  have hself := exec_pc_self h1 h2 hst hr
  -- the thread was in the same call before, up to a wake-up
  have hpm : ∃ ky0, s.pc m = PC.yield ky0 (some m) (some r)
      ∧ ∀ ph f, Good ky0 ph f → Good ky ph f := by
    rcases exec_pc_other hst hr (Ne.symm hgm) with (h4 | h4) | ⟨me, _, _, h4, _⟩
    · exact ⟨ky, by rw [← h4]; exact hpm1, fun _ _ hh => hh⟩
    · rw [h4] at hpm1
      rcases wake_eq_yield hpm1 with h5 | ⟨rfl, h5⟩
      · exact ⟨ky, h5, fun _ _ hh => hh⟩
      · exact ⟨YPos.parked, h5, fun _ _ hh => hh⟩
    · rw [h4] at hpm1; cases hpm1
  obtain ⟨ky0, hpm, hgood⟩ := hpm
  apply hgood
  have hg := h3.good _ _ hpm
  have hrm : r ≠ m := by
    intro e1; subst e1
    have := hg.ne_other
    rw [hpm] at this
    exact this rfl
  have hfl := run_flag hr (some m)
  by_cases hrg : r = g
  · subst hrg
    rw [hself]
    rcases phase_ne_other hg.ne_other with hd | ⟨k0, hk0⟩
    · rw [hd] at hst; simp [stmt, goroutine] at hst
    · rw [hk0] at hg
      have hloop : s.suspended (some m) = some true → ky0.inLoop = true := by
        intro hf
        obtain ⟨i, hi, hl⟩ := h2.map.susp _ hf
        cases hi
        rw [hpm] at hl
        exact hl
      rcases stmt_resume_cases hk0 hst with ⟨rfl, rfl, rfl⟩ | ⟨rfl, rfl, rfl, hf⟩
        | ⟨rfl, rfl, rfl, hf⟩ | ⟨rfl, rfl, rfl⟩ | ⟨rfl, rfl, rfl⟩ | ⟨d, rfl, rfl, rfl⟩
        | ⟨rfl, rfl, rfl⟩ | ⟨rfl, rfl, rfl⟩
      · rcases hfl with ⟨hf1, _⟩ | ⟨v, hv, _⟩
        · rw [hf1]; exact hg
        · cases hv
      · rcases hfl with ⟨hf1, _⟩ | ⟨v, hv, _⟩
        · rw [hf1]
          have hl := hloop hf
          cases ky0 <;> simp_all [Good, phase, RPos.phase, YPos.inLoop]
        · cases hv
      · rcases hfl with ⟨hf1, _⟩ | ⟨v, hv, _⟩
        · rw [hf1]; exact hg
        · cases hv
      · rcases hfl with ⟨_, hne⟩ | ⟨v, hv, hf1⟩
        · exact absurd rfl (hne _)
        · cases hv
          rw [hf1]
          cases ky0 <;> simp_all [Good, phase, RPos.phase]
      · rcases hfl with ⟨hf1, _⟩ | ⟨v, hv, _⟩
        · rw [hf1]; exact hg
        · cases hv
      · rcases hfl with ⟨hf1, _⟩ | ⟨v, hv, _⟩
        · rw [hf1]
          cases d <;> cases ky0 <;> simp_all [Good, phase, RPos.phase]
        · cases hv
      · rcases hfl with ⟨hf1, _⟩ | ⟨v, hv, _⟩
        · rw [hf1]
          cases ky0 <;> simp_all [Good, phase, RPos.phase]
        · cases hv
      · rcases hfl with ⟨hf1, _⟩ | ⟨v, hv, _⟩
        · rw [hf1]; exact hg
        · cases hv
  · have hph : phase m (s1.pc r) = phase m (s.pc r) := by
      rcases exec_pc_other hst hr hrg with (h4 | h4) | ⟨me, _, hn, _, _⟩
      · rw [h4]
      · rw [h4, phase_wake]
      · have := hg.ne_other
        rw [hn, h1.wf _ le_rfl] at this
        exact absurd rfl this
    rw [hph]
    rcases hfl with ⟨hf1, _⟩ | ⟨v, rfl, _⟩
    · rw [hf1]; exact hg
    · exfalso
      rcases stmt_writes hst with ⟨hh, hpg, _⟩ | ⟨b, hpg, _⟩ | ⟨_, hpg, _⟩
      · have := h1.self g _ _ _ hpg (by decide)
        exact hgm (Option.some.inj this).symm
      · obtain ⟨ky2, hp2⟩ := h3.live g _ b hpg (by decide)
        rw [hpm] at hp2
        cases hp2
        exact hrg rfl
      · exact hgm (Option.some.inj hpg).symm

theorem Inv3.spawn3 {m : Nat} {s : State} (h1 : Inv1 s) (h3 : Inv3 m s) {k1 : PC}
    (hk : k1 = PC.start ∨ ∃ th, k1 = PC.resume RPos.lock th false ∧ th ≠ some m) :
    Inv3 m (s.spawn k1) := by
  have hn : s.pc s.ngo = PC.none := h1.wf _ le_rfl
  have hm : ∀ ky me h, s.pc m = PC.yield ky me h → m ≠ s.ngo := by
    intro ky me h hp e1; rw [e1, hn] at hp; cases hp
  constructor
  · intro r k b hpr hkr
    by_cases hrn : r = s.ngo
    · subst hrn
      simp only [State.spawn, upd_same] at hpr
      rcases hk with rfl | ⟨th, rfl, hth⟩
      · cases hpr
      · cases hpr; exact absurd rfl hth
    · simp only [State.spawn, upd_other _ _ hrn] at hpr
      obtain ⟨ky, hpm⟩ := h3.live r k b hpr hkr
      exact ⟨ky, by simp only [State.spawn, upd_other _ _ (hm _ _ _ hpm)]; exact hpm⟩
  · intro ky r hpm1
    by_cases hmn : m = s.ngo
    · rw [hmn] at hpm1
      simp only [State.spawn, upd_same] at hpm1
      rcases hk with rfl | ⟨th, rfl, _⟩ <;> cases hpm1
    · simp only [State.spawn, upd_other _ _ hmn] at hpm1
      have hg := h3.good _ _ hpm1
      have hrn : r ≠ s.ngo := by
        intro e1
        have := hg.ne_other
        rw [e1, hn] at this
        exact this rfl
      simp only [State.spawn, upd_other _ _ hrn]
      exact hg
  · intro g hpg
    by_cases hgn : g = s.ngo
    · subst hgn
      simp only [State.spawn, upd_same] at hpg
      rcases hk with rfl | ⟨th, rfl, _⟩ <;> cases hpg
    · simp only [State.spawn, upd_other _ _ hgn] at hpg
      exact h3.sched g hpg

theorem Inv3.call3 {m : Nat} {s : State} (h3 : Inv3 m s) {g : Nat} {c : Call}
    (hb : s.pc g = PC.body) (hq : (Action.call g c).quiet m = true) :
    Inv3 m (s.goto g c.entry) := by
  constructor
  · intro r k b hpr hkr
    by_cases hrg : r = g
    · subst hrg
      simp only [State.goto, upd_same] at hpr
      cases c <;> simp only [Call.entry, PC.resume.injEq, reduceCtorEq] at hpr
      obtain ⟨_, rfl, _⟩ := hpr
      simp [Action.quiet] at hq
    · simp only [State.goto, upd_other _ _ hrg] at hpr
      obtain ⟨ky, hpm⟩ := h3.live r k b hpr hkr
      have hmg : m ≠ g := by intro e1; rw [e1, hb] at hpm; cases hpm
      exact ⟨ky, by simp only [State.goto, upd_other _ _ hmg]; exact hpm⟩
  · intro ky r hpm1
    by_cases hmg : m = g
    · rw [hmg] at hpm1
      simp only [State.goto, upd_same] at hpm1
      cases c <;> simp only [Call.entry, PC.yield.injEq, reduceCtorEq, and_false] at hpm1
    · simp only [State.goto, upd_other _ _ hmg] at hpm1
      have hg := h3.good _ _ hpm1
      have hrg : r ≠ g := by
        intro e1
        have := hg.ne_other
        rw [e1, hb] at this
        exact this rfl
      simp only [State.goto, upd_other _ _ hrg]
      exact hg
  · intro g1 hpg
    by_cases hgg : g1 = g
    · subst hgg
      simp only [State.goto, upd_same] at hpg
      cases c <;> simp only [Call.entry, PC.sched.injEq, reduceCtorEq] at hpg
      subst hpg
      simpa [Action.quiet] using hq
    · simp only [State.goto, upd_other _ _ hgg] at hpg
      exact h3.sched g1 hpg

theorem Inv3.step3 {m : Nat} {s s1 : State} {a : Action} (h1 : Inv1 s) (h2 : Inv2 s)
    (h3 : Inv3 m s) (hq : a.quiet m = true) (hs : step s a = some s1) : Inv3 m s1 := by
  cases a with
  | create =>
    simp only [step, CreateAndStart, Option.some.injEq] at hs
    subst hs
    exact h3.spawn3 h1 (Or.inl rfl)
  | resume th =>
    simp only [step, Option.some.injEq] at hs
    subst hs
    exact h3.spawn3 h1 (Or.inr ⟨th, rfl, by simpa [Action.quiet] using hq⟩)
  | call g c =>
    simp only [step] at hs
    split at hs
    · next hb =>
      simp only [Option.some.injEq] at hs
      subst hs
      exact h3.call3 hb hq
    · cases hs
  | exec g =>
    simp only [step] at hs
    split at hs
    · next e k hst =>
      refine ⟨Inv3.live_exec h1 h2 h3 hst hs, ?_, Inv3.sched_exec h1 h2 h3 hst hs⟩
      intro ky r hpm1
      by_cases hgm : g = m
      · subst hgm; exact Inv3.good_self h1 h2 h3 hst hs hpm1
      · exact Inv3.good_other h1 h2 h3 hst hs hgm hpm1
    · cases hs

/-- The third layer holds along every run that is quiet for `m`. -/
theorem quiet_inv3 (m : Nat) (acts : List Action) :
    ∀ s, Quiet m acts → run New acts = some s → Inv3 m s := by
  induction acts using List.reverseRecOn with
  | nil =>
    intro s _ hr
    simp only [run, Option.some.injEq] at hr
    subst hr
    exact Inv3.new3 m
  | append_singleton acts a ih =>
    intro s hq hr
    obtain ⟨s0, hr0, hs⟩ := run_snoc_inv hr
    have hreach : Reachable s0 := ⟨acts, hr0⟩
    have hq0 : Quiet m acts := fun b hb => hq b (List.mem_append_left _ hb)
    have hqa : a.quiet m = true := hq a (by simp)
    exact Inv3.step3 hreach.inv1 hreach.inv2 (ih s0 hq0 hr0) hqa hs

theorem Quiet.prefix_of {m : Nat} {pre post : List Action} (h : Quiet m (pre ++ post)) :
    Quiet m pre := fun a ha => h a (List.mem_append_left _ ha)

/-- In a run that is quiet for `m`, the flag that a `Yield` inside `Sched(some m)` set is
cleared by the helper of this `Sched`. -/
theorem cleared_by_helper {m : Nat} {acts : List Action} {s : State} {ky : YPos} {r : Nat}
    (hq : Quiet m acts) (hrun : run New acts = some s)
    (hpc : s.pc m = PC.yield ky (some m) (some r)) (ha : ky.afterSet = true)
    (hf : s.suspended (some m) ≠ some true) : ClearedBy acts m (some m) (some r) r := by
  rcases flag_or_cleared acts s hrun m ky (some m) (some r) hpc ha with ⟨_, hf1⟩ | ⟨r1, hc⟩
  · exact absurd hf1 hf
  · obtain ⟨pre, b, post, s0, s1, he, hr0, hpr, hf0, ⟨ky0, hp0, hl0⟩, hrest⟩ := hc
    have hq0 : Quiet m pre := by rw [he] at hq; exact hq.prefix_of
    obtain ⟨ky2, hp2⟩ := (quiet_inv3 m pre s0 hq0 hr0).live r1 _ b hpr (by decide)
    rw [hp0] at hp2
    cases hp2
    exact ⟨pre, b, post, s0, s1, he, hr0, hpr, hf0, ⟨ky0, hp0, hl0⟩, hrest⟩

/-- C9 (`Sched` never loses its own wake-up).  In every run in which nobody but the
helpers of thread `m`'s own `Sched(some m)` calls `Resume(some m)`, while thread `m` is
inside the `Yield` of its `Sched` with helper `r`:
(1) as long as `m` is parked in the wait loop with its flag set, the helper is inside
`Resume` before or at line 122, it has not finished;
(2) when the helper is past line 122 (in particular when it has returned), this `Yield`
has executed line 105, the flag is false, and it was the helper that cleared the flag
that this `Yield` set;
(3) the last statement of `Sched` (line 112 of its `Yield`) returns into the body with
the run lock held by the caller, `Current() == me` and `suspended[me] == false`, after
the helper cleared the flag of this `Yield`. -/
theorem sched_keeps_wakeup (m : Nat) (acts : List Action) (s : State) (ky : YPos) (r : Nat)
    (hq : Quiet m acts) (hrun : run New acts = some s)
    (hpc : s.pc m = PC.yield ky (some m) (some r)) :
    (ky.inLoop = true → s.suspended (some m) = some true →
      ∃ k, s.pc r = PC.resume k (some m) false
        ∧ (k.phase = Phase.pending ∨ k.phase = Phase.store))
    ∧ (phase m (s.pc r) = Phase.clearing ∨ phase m (s.pc r) = Phase.returned →
        ky.afterSet = true ∧ s.suspended (some m) = some false
          ∧ ClearedBy acts m (some m) (some r) r)
    ∧ (ky = YPos.publish →
        ∃ s1, step s (Action.exec m) = some s1 ∧ s1.pc m = PC.body
          ∧ holdsSema (s1.pc m) = true ∧ s1.sema = true ∧ Current s1 = some m
          ∧ s1.suspended (some m) = some false ∧ ClearedBy acts m (some m) (some r) r) := by
  have hreach : Reachable s := ⟨acts, hrun⟩
  have h1 := hreach.inv1
  have h3 := quiet_inv3 m acts s hq hrun
  have hg := h3.good _ _ hpc
  refine ⟨?_, ?_, ?_⟩
  · intro hl hf
    have hp : phase m (s.pc r) = Phase.pending ∨ phase m (s.pc r) = Phase.store := by
      cases ky <;> simp_all [Good, YPos.inLoop]
    rcases phase_ne_other hg.ne_other with hd | ⟨k0, hk0⟩
    · rw [hd] at hp; simp [phase] at hp
    · refine ⟨k0, hk0, ?_⟩
      rw [hk0] at hp
      simpa [phase] using hp
  · intro hp
    have hfa : ky.afterSet = true ∧ s.suspended (some m) = some false := by
      rcases hp with hp | hp <;> rw [hp] at hg <;>
        cases ky <;> simp_all [Good, YPos.afterSet]
    exact ⟨hfa.1, hfa.2, cleared_by_helper hq hrun hpc hfa.1 (by rw [hfa.2]; simp)⟩
  · intro hk
    subst hk
    have hf : s.suspended (some m) = some false := hg.1
    have hs : holdsSema (s.pc m) = true := by rw [hpc]; rfl
    refine ⟨{ s with current := some m }.goto m PC.body, ?_, upd_same _ _ _, ?_,
      h1.sema.locked_of_holds hs, by rfl, hf,
      cleared_by_helper hq hrun hpc rfl (by rw [hf]; simp)⟩
    · simp [step, hpc, stmt, Yield, Eff.run]
    · simp [State.goto, holdsSema]

theorem sched_keeps_wakeup_witness :
    Quiet 0 runSched ∧ run New runSched = some (reach runSched)
    ∧ (reach runSched).pc 0 = PC.yield YPos.publish (some 0) (some 1)
    ∧ ∃ s1, step (reach runSched) (Action.exec 0) = some s1 ∧ s1.pc 0 = PC.body
        ∧ holdsSema (s1.pc 0) = true ∧ s1.sema = true ∧ Current s1 = some 0
        ∧ s1.suspended (some 0) = some false ∧ ClearedBy runSched 0 (some 0) (some 1) 1 :=
  ⟨by unfold Quiet; decide, rfl, rfl,
    (sched_keeps_wakeup 0 runSched (reach runSched) YPos.publish 1 (by unfold Quiet; decide)
      rfl rfl).2.2 rfl⟩

/-! ## `Resume` on a parked thread -/

theorem wake_of_holdsMutex {k : PC} (h : holdsMutex k = true) : wake k = k := by
  unfold wake; split
  · simp [holdsMutex, YPos.holdsMutex] at h
  · rfl

/-- While a goroutine `r` holds the mutex, a step of another goroutine changes neither
the map nor the position of `r`, and the mutex stays locked. -/
theorem mutex_holder_frame {s s1 : State} {a : Action} {r : Nat} (h1 : Inv1 s) (h2 : Inv2 s)
    (hh : holdsMutex (s.pc r) = true) (hs : step s a = some s1) (ha : a ≠ Action.exec r) :
    s1.suspended = s.suspended ∧ s1.pc r = s.pc r ∧ s1.mutex = true := by
  have hm : s.mutex = true := h2.mutex.locked_of_holds hh
  have hrn : r ≠ s.ngo := by
    intro e1; rw [e1, h1.wf _ le_rfl] at hh; simp [holdsMutex] at hh
  rcases step_cases_act hs with ⟨k1, rfl, _, _⟩ | ⟨g, c, _, hb, rfl⟩ | ⟨g, e, k, rfl, hst, hr⟩
  · exact ⟨rfl, upd_other _ _ hrn, hm⟩
  · have hrg : r ≠ g := by
      intro e1; rw [e1, hb] at hh; simp [holdsMutex] at hh
    exact ⟨rfl, upd_other _ _ hrg, hm⟩
  · have hrg : r ≠ g := by intro e1; exact ha (by rw [e1])
    have ho2 := Move.ok2 (Or.inl hst) h1 h2
    have hng : holdsMutex (s.pc g) = false := by
      cases hg : holdsMutex (s.pc g) with
      | false => rfl
      | true => exact absurd (h2.mutex.excl r g hh hg) hrg
    refine ⟨?_, ?_, ?_⟩
    · rcases Eff.run_suspended hr with ⟨h3, _⟩ | ⟨t, v, rfl, _⟩
      · exact h3
      · rw [ho2.1] at hng; cases hng
    · rcases Eff.run_pc_other hr hrg with h3 | ⟨_, h3⟩ | ⟨k1, _, hn, _⟩
      · exact h3
      · rw [h3, wake_of_holdsMutex hh]
      · exact absurd hn hrn
    · cases e with
      | lockMutex => simp [Eff.run, hm] at hr
      | unlockMutex => rw [ho2.1] at hng; cases hng
      | _ =>
        simp only [Eff.run] at hr
        try split_ifs at hr
        all_goals simp only [Option.some.injEq] at hr
        all_goals subst hr
        all_goals exact hm

/-- C3, as stated, fails: a thread is parked with `suspended[T] == true` and two
goroutines call `Resume(T)`; goroutine 1 holds the mutex and is about to clear the flag
(line 122), goroutine 2 is at line 120 and cannot lock the mutex.  Once goroutine 1 has
finished, the pass of goroutine 2 finds the flag false and ends back at line 120 without
returning; and however many statements goroutine 2 executes then, it does not return. -/
theorem resume_parked_counterexample :
    Reachable (reach runResumeRace)
    ∧ (reach runResumeRace).suspended (some 0) = some true
    ∧ (reach runResumeRace).pc 1 = PC.resume RPos.store (some 0) false
    ∧ (reach runResumeRace).pc 2 = PC.resume RPos.lock (some 0) false
    ∧ (step (reach runResumeRace) (Action.exec 2)).isSome = false
    ∧ (run (reach runResumeRace)
          [Action.exec 1, Action.exec 1, Action.exec 1, Action.exec 1,
           Action.exec 2, Action.exec 2, Action.exec 2, Action.exec 2]).map
        (fun s => (s.pc 1, s.pc 2, s.suspended (some 0)))
        = some (PC.done, PC.resume RPos.lock (some 0) false, some false)
    ∧ ¬ ∃ n s1, run (reach runResumeRaceLost) (List.replicate n (Action.exec 2)) = some s1
        ∧ s1.pc 2 = PC.done := by
  refine ⟨⟨runResumeRace, rfl⟩, rfl, rfl, rfl, rfl, rfl, ?_⟩
  rintro ⟨n, s1, hr, hd⟩
  have hsp : Spinning (reach runResumeRaceLost) 2 (some 0) false :=
    ⟨by decide, Or.inl ⟨rfl, rfl⟩⟩
  obtain ⟨s2, hr2, hsp2, _⟩ := hsp.forever n
  rw [hr] at hr2
  cases hr2
  obtain ⟨k, hk⟩ := hsp2.pc
  rw [hd] at hk
  cases hk

/-- C3, amended (`Resume` on a parked thread).  In every state in which `suspended[th]`
is true and the state mutex is free, a goroutine `r` that calls `Resume(th)` and
executes one pass of its loop returns after the six statements of this single pass
(lines 120-127, with `done == true` at line 127).  Then `suspended[th]` is false; the
flag of every other thread, `current`, the run lock, and the mutex are as before; every
goroutine parked in `Wait` has been awoken.  An awoken goroutine that waits for another
thread `u` whose flag is still true re-tests its flag and parks again without changing
the manager, while an awoken goroutine that waits for `th` leaves the wait loop.  And
in every reachable state, while a goroutine holds the mutex (as the caller does from
line 120 to line 126), no step of another goroutine changes the map, moves the holder
or frees the mutex. -/
theorem resume_parked (s : State) (r : Nat) (th : Thread) (b : Bool)
    (hpc : s.pc r = PC.resume RPos.lock th b) (hm : s.mutex = false)
    (hf : s.suspended th = some true) :
    run s (List.replicate 6 (Action.exec r)) = some (resumed s r th b)
    ∧ (∃ s5, run s (List.replicate 5 (Action.exec r)) = some s5
        ∧ s5.pc r = PC.resume (RPos.check true) th b)
    ∧ (resumed s r th b).pc r = (if b then PC.body else PC.done)
    ∧ (resumed s r th b).suspended th = some false
    ∧ (∀ u, u ≠ th → (resumed s r th b).suspended u = s.suspended u)
    ∧ (resumed s r th b).current = s.current
    ∧ (resumed s r th b).sema = s.sema
    ∧ (resumed s r th b).mutex = s.mutex
    ∧ (∀ i, i ≠ r → (resumed s r th b).pc i = wake (s.pc i))
    ∧ (∀ i u h, i ≠ r → s.pc i = PC.yield YPos.parked u h → u ≠ th →
        s.suspended u = some true →
        ∃ s2, run (resumed s r th b) [Action.exec i, Action.exec i, Action.exec i] = some s2
          ∧ s2.pc i = PC.yield YPos.parked u h ∧ s2.suspended = (resumed s r th b).suspended
          ∧ s2.current = s.current ∧ s2.sema = s.sema ∧ s2.mutex = s.mutex)
    ∧ (∀ i h, i ≠ r → s.pc i = PC.yield YPos.parked th h →
        ∃ s2, run (resumed s r th b) [Action.exec i, Action.exec i] = some s2
          ∧ s2.pc i = PC.yield YPos.unlock th h)
    ∧ (∀ (s0 s1 : State) (a : Action) (r0 : Nat), Reachable s0 →
        holdsMutex (s0.pc r0) = true → step s0 a = some s1 → a ≠ Action.exec r0 →
        s1.suspended = s0.suspended ∧ s1.pc r0 = s0.pc r0 ∧ s1.mutex = true) := by
  refine ⟨?_, ?_, by simp [resumed], by simp [resumed],
    fun u hu => by simp [resumed, upd_other _ _ hu], rfl, rfl, rfl,
    fun i hi => by simp [resumed, upd_other _ _ hi], ?_, ?_,
    fun s0 s1 a r0 hr0 hh hs ha => mutex_holder_frame hr0.inv1 hr0.inv2 hh hs ha⟩
  · simp only [List.replicate, run, step, stmt, Resume, Eff.run, State.goto, hpc, hm, hf,
      State.flag, upd_same, Option.some_bind, Option.getD_some, if_true, Bool.false_eq_true,
      if_false, upd_upd, upd_wake_upd, resumed]
  · simp [List.replicate, run, step, stmt, Resume, Eff.run, State.goto, hpc, hm, hf,
      State.flag]
  · intro i u h hi hp hu hfu
    have h1 : (resumed s r th b).pc i = PC.yield YPos.woken u h := by
      simp [resumed, upd_other _ _ hi, hp, wake]
    have h2 : (resumed s r th b).suspended u = some true := by
      simp [resumed, upd_other _ _ hu, hfu]
    have h3 : (resumed s r th b).mutex = false := hm
    simp [run, step, stmt, Yield, Eff.run, State.goto, h1, h2, h3, State.flag, hm]
    exact ⟨rfl, rfl⟩
  · intro i h hi hp
    have h1 : (resumed s r th b).pc i = PC.yield YPos.woken th h := by
      simp [resumed, upd_other _ _ hi, hp, wake]
    have h2 : (resumed s r th b).suspended th = some false := upd_same _ _ _
    have h3 : (resumed s r th b).mutex = false := hm
    simp [run, step, stmt, Yield, Eff.run, State.goto, h1, h2, h3, State.flag]

theorem resume_parked_witness :
    (reach runTwoParked).pc 2 = PC.resume RPos.lock (some 0) false
    ∧ (reach runTwoParked).mutex = false
    ∧ (reach runTwoParked).suspended (some 0) = some true
    ∧ (reach runTwoParked).pc 1 = PC.yield YPos.parked (some 1) Option.none
    ∧ (reach runTwoParked).suspended (some 1) = some true
    ∧ run (reach runTwoParked) (List.replicate 6 (Action.exec 2))
        = some (resumed (reach runTwoParked) 2 (some 0) false)
    ∧ (resumed (reach runTwoParked) 2 (some 0) false).suspended (some 1)
        = (reach runTwoParked).suspended (some 1)
    ∧ (∃ s2, run (resumed (reach runTwoParked) 2 (some 0) false)
          [Action.exec 1, Action.exec 1, Action.exec 1] = some s2
        ∧ s2.pc 1 = PC.yield YPos.parked (some 1) Option.none
        ∧ s2.suspended = (resumed (reach runTwoParked) 2 (some 0) false).suspended
        ∧ s2.current = (reach runTwoParked).current ∧ s2.sema = (reach runTwoParked).sema
        ∧ s2.mutex = (reach runTwoParked).mutex)
    ∧ ∃ s2, run (resumed (reach runTwoParked) 2 (some 0) false)
          [Action.exec 0, Action.exec 0] = some s2
        ∧ s2.pc 0 = PC.yield YPos.unlock (some 0) Option.none :=
  ⟨rfl, rfl, rfl, rfl, rfl,
    (resume_parked (reach runTwoParked) 2 (some 0) false rfl rfl rfl).1,
    (resume_parked (reach runTwoParked) 2 (some 0) false rfl rfl rfl).2.2.2.2.1 (some 1)
      (by decide),
    (resume_parked (reach runTwoParked) 2 (some 0) false rfl rfl rfl).2.2.2.2.2.2.2.2.2.1
      1 (some 1) Option.none (by decide) rfl (by decide) rfl,
    (resume_parked (reach runTwoParked) 2 (some 0) false rfl rfl rfl).2.2.2.2.2.2.2.2.2.2.1
      0 Option.none (by decide) rfl⟩

end Spx
